import Mathlib

/-!
# Line editor (`src/line_editor.cpp`): shallow embedding and verification

The embedding follows the C++ source function by function.

* A `std::string` is a `List Char`, a `std::vector<string>` a `List Line`.
* A `std::stack<BufferState>` is a `List BufferState` whose head is the top of
  the stack (the most recently pushed element); the last element is the oldest.
* `int` values are `Int`; the conversions `size_t → int` (`static_cast<int>`,
  the constructor call `Cursor(i, found)`) wrap modulo `2^32` (`toInt32`), the
  conversion `int → size_t` (an `int` passed as a `size_type` argument) wraps
  modulo `2^64` (`toSizeT`).
* A member function returns an `Outcome`: a normal return with the boolean
  result and the editor afterwards, a propagated `std::out_of_range`
  together with the editor at the point of the throw, or undefined behaviour
  (a library precondition broken, after which nothing is known).
* Console output (`cout << ...`) is not part of the state and is left out.
-/

namespace LineEditor

/-- A line of text (`std::string`). -/
abbrev Line := List Char

/-! ## Machine integers -/

/-- Conversion of a `size_t` value to `int` (32 bit, two's complement wrap). -/
def toInt32 (n : Nat) : Int :=
  if n % 2 ^ 32 < 2 ^ 31 then ((n % 2 ^ 32 : Nat) : Int) else ((n % 2 ^ 32 : Nat) : Int) - 2 ^ 32

/-- Conversion of an `int` value to `size_t` (64 bit): a negative value becomes huge. -/
def toSizeT (z : Int) : Nat := (z % 2 ^ 64).toNat

/-! ## The `std::string` members the editor calls -/

/-- Does `s` begin with `w`? (the comparison `find` makes at one offset) -/
def startsWith : Line → Line → Bool
  | _, [] => true
  | [], _ :: _ => false
  | c :: s, d :: w => c == d && startsWith s w

/-- The scan of `find`: `s` is the text from offset `base` on; the lowest offset at
which `w` begins is returned. -/
def findFrom (w : Line) : Line → Nat → Option Nat
  | [], base => if w = [] then some base else none
  | c :: s, base => if startsWith (c :: s) w then some base else findFrom w s (base + 1)

/-- The call `s.find(w, pos)`: the lowest offset `≥ pos` at which `w` occurs in `s`, `none` for
`string::npos`. -/
def strFind (s w : Line) (pos : Nat) : Option Nat :=
  if pos ≤ s.length then findFrom w (s.drop pos) pos else none

/-- The call `s.insert(pos, w)`; `none` stands for the `std::out_of_range` it throws when
`pos > s.size()`. -/
def strInsert (s : Line) (pos : Nat) (w : Line) : Option Line :=
  if pos ≤ s.length then some (s.take pos ++ w ++ s.drop pos) else none

/-- The call `s.replace(pos, len, w)`; `none` stands for `std::out_of_range`. -/
def strReplace (s : Line) (pos len : Nat) (w : Line) : Option Line :=
  if pos ≤ s.length then some (s.take pos ++ w ++ s.drop (pos + len)) else none

/-- The call `s.erase(pos, len)`; `none` stands for `std::out_of_range`. -/
def strErase (s : Line) (pos len : Nat) : Option Line :=
  if pos ≤ s.length then some (s.take pos ++ s.drop (pos + len)) else none

/-- The call `v.insert(v.begin() + position, text)`; `none` when the iterator is not in
`[begin, end]`, which is undefined behaviour. -/
def vecInsert (v : List Line) (position : Int) (text : Line) : Option (List Line) :=
  if 0 ≤ position ∧ position ≤ (v.length : Int) then
    some (v.take position.toNat ++ text :: v.drop position.toNat)
  else none

/-- The call `v.erase(v.begin() + lineNum)`; `none` when there is no such element. -/
def vecErase (v : List Line) (lineNum : Int) : Option (List Line) :=
  if 0 ≤ lineNum ∧ lineNum < (v.length : Int) then some (v.eraseIdx lineNum.toNat) else none

/-! ## Data model -/

/-- The class `Cursor`. -/
structure Cursor where
  lineNum : Int
  position : Int
  deriving DecidableEq, Repr

/-- The default `Cursor()`: `(-1, -1)`. -/
def Cursor.default : Cursor := ⟨-1, -1⟩

/-- The class `BufferState`: a copy of the buffer. -/
structure BufferState where
  lines : List Line
  deriving DecidableEq, Repr

end LineEditor

/-- The class `LineEditor` (its data members). -/
structure LineEditor where
  buffer : List LineEditor.Line
  undoStack : List LineEditor.BufferState
  redoStack : List LineEditor.BufferState
  filepath : String
  deriving DecidableEq, Repr

namespace LineEditor

def MAX_LINES : Nat := 25

def MAX_UNDO : Nat := 3

/-- What a member function call does. -/
inductive Outcome where
  /-- normal return: the result and the editor afterwards -/
  | ret (ok : Bool) (ed : LineEditor)
  /-- a `std::out_of_range` leaves the function; the editor at that point -/
  | thrown (ed : LineEditor)
  /-- undefined behaviour -/
  | undefined
  deriving DecidableEq, Repr

/-- The constructor `LineEditor(path)`. -/
def new (path : String) : LineEditor :=
  { buffer := [], undoStack := [], redoStack := [], filepath := path }

/-- The loop `while (undoStack.size() >= MAX_UNDO) undoStack.pop();` of `saveBufferState`. -/
def popWhileFull : List BufferState → List BufferState
  | [] => []
  | top :: rest => if (top :: rest).length ≥ MAX_UNDO then popWhileFull rest else top :: rest

/-- The loop `while (!redoStack.empty()) redoStack.pop();` of `saveBufferState`. -/
def popAll : List BufferState → List BufferState
  | [] => []
  | _ :: rest => popAll rest

/-- The private member `saveBufferState`. -/
def saveBufferState (ed : LineEditor) : LineEditor :=
  { ed with
    undoStack := ⟨ed.buffer⟩ :: popWhileFull ed.undoStack
    redoStack := popAll ed.redoStack }

/-- The read loop of `openFile`: `lines` are the lines the successive `getline` calls
extract. -/
def readLoop : List Line → List Line → List Line
  | buf, [] => buf
  | buf, line :: rest => if buf.length < MAX_LINES then readLoop (buf ++ [line]) rest else buf

/-- The member `openFile`. `file` holds the lines `getline` extracts from the file, `none` when
the file cannot be opened for reading; `canCreate` tells whether it can then be created. -/
def openFile (ed : LineEditor) (file : Option (List Line)) (canCreate : Bool) : Outcome :=
  match file with
  | none => if canCreate then .ret true ed else .ret false ed
  | some lines => .ret true { ed with buffer := readLoop ed.buffer lines }

/-- The loop of `searchWord`, at index `i`, over the lines from `i` on. -/
def searchLoop (word : Line) : List Line → Nat → Cursor
  | [], _ => Cursor.default
  | line :: rest, i =>
    match strFind line word 0 with
    | some found => ⟨toInt32 i, toInt32 found⟩
    | none => searchLoop word rest (i + 1)

/-- The member `searchWord`: the cursor returned, and the editor afterwards. -/
def searchWord (ed : LineEditor) (word : Line) : Cursor × LineEditor :=
  (searchLoop word ed.buffer 0, ed)

/-- The member `insertLine`. -/
def insertLine (ed : LineEditor) (position : Int) (text : Line) : Outcome :=
  if ed.buffer.length ≥ MAX_LINES ∨ position > toInt32 ed.buffer.length then .ret false ed
  else
    let ed1 := saveBufferState ed
    match vecInsert ed1.buffer position text with
    | some b => .ret true { ed1 with buffer := b }
    | none => .undefined

/-- The member `insertWord`. -/
def insertWord (ed : LineEditor) (cursor : Cursor) (word : Line) : Outcome :=
  if cursor.lineNum < 0 ∨ cursor.lineNum ≥ toInt32 ed.buffer.length then .ret false ed
  else
    let ed1 := saveBufferState ed
    match ed1.buffer[cursor.lineNum.toNat]? with
    | none => .undefined
    | some line =>
      match strInsert line (toSizeT cursor.position) word with
      | none => .thrown ed1
      | some line1 => .ret true { ed1 with buffer := ed1.buffer.set cursor.lineNum.toNat line1 }

/-- The member `updateWord`. -/
def updateWord (ed : LineEditor) (cursor : Cursor) (oldWord newWord : Line) : Outcome :=
  if cursor.lineNum < 0 ∨ cursor.lineNum ≥ toInt32 ed.buffer.length then .ret false ed
  else
    match ed.buffer[cursor.lineNum.toNat]? with
    | none => .undefined
    | some line =>
      match strFind line oldWord (toSizeT cursor.position) with
      | some found =>
        let ed1 := saveBufferState ed
        match strReplace line found oldWord.length newWord with
        | none => .thrown ed1
        | some line1 => .ret true { ed1 with buffer := ed1.buffer.set cursor.lineNum.toNat line1 }
      | none => .ret false ed

/-- The member `deleteLine`. -/
def deleteLine (ed : LineEditor) (lineNum : Int) : Outcome :=
  if lineNum < 0 ∨ lineNum ≥ toInt32 ed.buffer.length then .ret false ed
  else
    let ed1 := saveBufferState ed
    match vecErase ed1.buffer lineNum with
    | some b => .ret true { ed1 with buffer := b }
    | none => .undefined

/-- The member `deleteWord`. -/
def deleteWord (ed : LineEditor) (cursor : Cursor) (word : Line) : Outcome :=
  if cursor.lineNum < 0 ∨ cursor.lineNum ≥ toInt32 ed.buffer.length then .ret false ed
  else
    match ed.buffer[cursor.lineNum.toNat]? with
    | none => .undefined
    | some line =>
      match strFind line word (toSizeT cursor.position) with
      | some found =>
        let ed1 := saveBufferState ed
        match strErase line found word.length with
        | none => .thrown ed1
        | some line1 => .ret true { ed1 with buffer := ed1.buffer.set cursor.lineNum.toNat line1 }
      | none => .ret false ed

/-- The member `undo`. -/
def undo (ed : LineEditor) : Outcome :=
  match ed.undoStack with
  | [] => .ret false ed
  | top :: rest =>
    .ret true { ed with redoStack := ⟨ed.buffer⟩ :: ed.redoStack, buffer := top.lines, undoStack := rest }

/-- The member `redo`. -/
def redo (ed : LineEditor) : Outcome :=
  match ed.redoStack with
  | [] => .ret false ed
  | top :: rest =>
    .ret true { ed with undoStack := ⟨ed.buffer⟩ :: ed.undoStack, buffer := top.lines, redoStack := rest }

/-! ## Calls as data -/

/-- A call of one of the five mutating members. -/
inductive Mutation where
  | insertLine (position : Int) (text : Line)
  | insertWord (cursor : Cursor) (word : Line)
  | updateWord (cursor : Cursor) (oldWord newWord : Line)
  | deleteLine (lineNum : Int)
  | deleteWord (cursor : Cursor) (word : Line)
  deriving DecidableEq, Repr

/-- Run one mutating call. -/
def Mutation.run (ed : LineEditor) : Mutation → Outcome
  | .insertLine p t => LineEditor.insertLine ed p t
  | .insertWord c w => LineEditor.insertWord ed c w
  | .updateWord c o n => LineEditor.updateWord ed c o n
  | .deleteLine i => LineEditor.deleteLine ed i
  | .deleteWord c w => LineEditor.deleteWord ed c w

/-- A call of a member of the editor. -/
inductive Op where
  | openFile (file : Option (List Line)) (canCreate : Bool)
  | searchWord (word : Line)
  | mutate (m : Mutation)
  | undo
  | redo
  deriving DecidableEq, Repr

/-- Run one call. -/
def Op.run (ed : LineEditor) : Op → Outcome
  | .openFile f c => LineEditor.openFile ed f c
  | .searchWord w => .ret true (LineEditor.searchWord ed w).2
  | .mutate m => m.run ed
  | .undo => LineEditor.undo ed
  | .redo => LineEditor.redo ed

/-- The editor a call leaves behind, when it is defined: after a normal return, or at the
point where an exception left the call. -/
def Outcome.state? : Outcome → Option LineEditor
  | .ret _ ed => some ed
  | .thrown ed => some ed
  | .undefined => none

/-- The states a freshly constructed editor can reach by a sequence of calls. -/
inductive Reachable : LineEditor → Prop where
  | fresh (path : String) : Reachable (LineEditor.new path)
  | call (ed ed1 : LineEditor) (op : Op) :
      Reachable ed → (op.run ed).state? = some ed1 → Reachable ed1

/-- Run a sequence of mutating calls that all return success; `none` when one of them does
not. -/
def runAll : LineEditor → List Mutation → Option LineEditor
  | ed, [] => some ed
  | ed, m :: ms =>
    match m.run ed with
    | .ret true ed1 => runAll ed1 ms
    | _ => none

/-! ## Persistence and the `update` command -/

/-- One call `getline(file, line)` on the unread content of the stream: the line extracted (up
to the next `'\n'`, which is consumed, or to the end) and the content left; `none` when the call
fails because nothing is left to read. -/
def getline : List Char → Option (Line × List Char)
  | [] => none
  | c :: cs =>
    if c = '\n' then some ([], cs)
    else
      match getline cs with
      | none => some ([c], [])
      | some (l, rest) => some (c :: l, rest)

/-- The lines the successive `getline` calls of `openFile` extract from a file with the given
content, until a call fails. -/
def getlines : List Char → List Line
  | [] => []
  | c :: cs =>
    if c = '\n' then [] :: getlines cs
    else
      match getlines cs with
      | [] => [[c]]
      | l :: ls => (c :: l) :: ls

/-- The loop `for (const auto& line : buffer) file << line << '\n';` of `saveFile`: the
characters written. -/
def writeLines : List Line → List Char
  | [] => []
  | line :: rest => line ++ '\n' :: writeLines rest

/-- The member `saveFile`: the outcome, and the new content of the file when it could be opened
for writing (`canOpen`); the file is truncated on opening. -/
def saveFile (ed : LineEditor) (canOpen : Bool) : Outcome × Option (List Char) :=
  if canOpen then (.ret true ed, some (writeLines ed.buffer)) else (.ret false ed, none)

/-- What the `update` command of `main` prints. -/
inductive Printed where
  | nothing
  | failedToUpdate
  | wordNotFound
  deriving DecidableEq, Repr

/-- The `update <oldWord> <newWord>` command of `main`: a fresh `searchWord(oldWord)`, then
`updateWord` at the cursor it returns unless `cursor.lineNum == -1`. The result is what is
printed and the outcome of the member calls (the boolean tells whether `updateWord` was
called and returned true). -/
def updateCommand (ed : LineEditor) (oldWord newWord : Line) : Printed × Outcome :=
  let r := searchWord ed oldWord
  if r.1.lineNum ≠ -1 then
    match updateWord r.2 r.1 oldWord newWord with
    | .ret true ed1 => (.nothing, .ret true ed1)
    | .ret false ed1 => (.failedToUpdate, .ret false ed1)
    | .thrown ed1 => (.nothing, .thrown ed1)
    | .undefined => (.nothing, .undefined)
  else (.wordNotFound, .ret false r.2)

/-! ## Specification vocabulary -/

/-- The word `w` occurs in the line `s` at offset `k`. -/
def OccursAt (s w : Line) (k : Nat) : Prop :=
  ∃ pre post : Line, s = pre ++ w ++ post ∧ pre.length = k

/-- The line `s` contains the word `w` as a substring. -/
def Contains (s w : Line) : Prop := ∃ k, OccursAt s w k

/-- The offset `c` is where the first occurrence of `w` in `s` starts. -/
def FirstOccurrence (s w : Line) (c : Nat) : Prop :=
  OccursAt s w c ∧ ∀ k, k < c → ¬ OccursAt s w k

/-- The value `z` is one an `int` (32 bit) can hold. -/
def IsInt (z : Int) : Prop := -2 ^ 31 ≤ z ∧ z < 2 ^ 31

/-- The invariant of the editor: the buffer and every snapshot hold at most `MAX_LINES` lines,
and the two history stacks together hold at most `MAX_UNDO` snapshots. -/
def Inv (ed : LineEditor) : Prop :=
  ed.buffer.length ≤ MAX_LINES ∧
  (∀ s ∈ ed.undoStack, s.lines.length ≤ MAX_LINES) ∧
  (∀ s ∈ ed.redoStack, s.lines.length ≤ MAX_LINES) ∧
  ed.undoStack.length + ed.redoStack.length ≤ MAX_UNDO

/-! ## Concrete editors -/

/-- An editor whose buffer is `["a", "c"]`, with no history. -/
def edAC : LineEditor :=
  { buffer := ["a".toList, "c".toList], undoStack := [], redoStack := [], filepath := "file.txt" }

/-- An editor whose buffer is `["abc", "xfoox", "bar"]`, with no history. -/
def edFoo : LineEditor :=
  { buffer := ["abc".toList, "xfoox".toList, "bar".toList], undoStack := [], redoStack := [],
    filepath := "file.txt" }

/-- Four successive calls `insertLine(0, "a")`, ..., `insertLine(3, "d")`, each appending. -/
def fourInserts : List Mutation :=
  [.insertLine 0 "a".toList, .insertLine 1 "b".toList, .insertLine 2 "c".toList,
   .insertLine 3 "d".toList]

/-- The editor `openFile` leaves when a fresh editor reads a file of 30 empty lines: the buffer
holds the first `MAX_LINES` of them. -/
def edLoaded : LineEditor :=
  { buffer := List.replicate 25 [], undoStack := [], redoStack := [], filepath := "file.txt" }

/-- The editor after `insertLine(0, "ab")`, `insertLine(1, "cd")` and `undo()` on a fresh
editor. -/
def edUndone : LineEditor :=
  { buffer := ["ab".toList], undoStack := [⟨[]⟩], redoStack := [⟨["ab".toList, "cd".toList]⟩],
    filepath := "file.txt" }

/-- The editor after the first three calls of `fourInserts` on a fresh editor. -/
def edThree : LineEditor :=
  { buffer := ["a".toList, "b".toList, "c".toList],
    undoStack := [⟨["a".toList, "b".toList]⟩, ⟨["a".toList]⟩, ⟨[]⟩],
    redoStack := [], filepath := "file.txt" }

/-- The editor after `fourInserts` and one `undo()` on a fresh editor. -/
def edFourUndo : LineEditor :=
  { buffer := ["a".toList, "b".toList, "c".toList],
    undoStack := [⟨["a".toList]⟩, ⟨[]⟩],
    redoStack := [⟨["a".toList, "b".toList, "c".toList, "d".toList]⟩], filepath := "file.txt" }

/-- An editor whose buffer is `["a", "b", "c"]`, with no history. -/
def edABC : LineEditor :=
  { buffer := ["a".toList, "b".toList, "c".toList], undoStack := [], redoStack := [],
    filepath := "file.txt" }

/-- An editor whose buffer is `["foo", "a foo foo"]`, with no history. -/
def edTwoFoo : LineEditor :=
  { buffer := ["foo".toList, "a foo foo".toList], undoStack := [], redoStack := [],
    filepath := "file.txt" }

/-- An editor whose buffer is the single line `"a\nb"`, which holds a newline character (the
state a fresh editor reaches by `insertLine(0, "a\nb")`). -/
def edNewline : LineEditor :=
  { buffer := ["a\nb".toList], undoStack := [⟨[]⟩], redoStack := [], filepath := "file.txt" }

/-- A line of `n` characters `a` followed by one `b`. -/
def longLine (n : Nat) : Line := List.replicate n 'a' ++ ['b']

/-- An editor whose buffer is the single line `longLine n`, with no history (the state a fresh
editor reaches by `openFile` on a file that holds this one line). -/
def edLong (n : Nat) : LineEditor :=
  { buffer := [longLine n], undoStack := [], redoStack := [], filepath := "file.txt" }

end LineEditor

/-! ## Basic facts about the history stacks -/

namespace LineEditor

theorem popAll_eq_nil (st : List BufferState) : popAll st = [] := by
  induction st with
  | nil => rfl
  | cons _ _ ih => simpa [popAll] using ih

theorem popWhileFull_eq_drop (st : List BufferState) :
    popWhileFull st = st.drop (st.length - (MAX_UNDO - 1)) := by
  induction st with
  | nil => rfl
  | cons top rest ih =>
    unfold popWhileFull
    by_cases h : (top :: rest).length ≥ MAX_UNDO
    · rw [if_pos h, ih]
      simp only [MAX_UNDO, List.length_cons, ge_iff_le] at h ⊢
      have e : rest.length + 1 - (3 - 1) = (rest.length - (3 - 1)) + 1 := by omega
      rw [e, List.drop_succ_cons]
    · rw [if_neg h]
      simp only [MAX_UNDO, List.length_cons, ge_iff_le] at h ⊢
      have e : rest.length + 1 - (3 - 1) = 0 := by omega
      rw [e, List.drop_zero]

theorem popWhileFull_length (st : List BufferState) :
    (popWhileFull st).length = min st.length (MAX_UNDO - 1) := by
  rw [popWhileFull_eq_drop, List.length_drop]
  simp only [MAX_UNDO]
  omega

theorem saveBufferState_buffer (ed : LineEditor) : (saveBufferState ed).buffer = ed.buffer := rfl

theorem saveBufferState_redoStack (ed : LineEditor) : (saveBufferState ed).redoStack = [] :=
  popAll_eq_nil _

theorem saveBufferState_undoStack (ed : LineEditor) :
    (saveBufferState ed).undoStack = ⟨ed.buffer⟩ :: popWhileFull ed.undoStack := rfl

/-- A mutating call that returns success has run `saveBufferState` on the state before it and
then changed the buffer only. -/
theorem Mutation.run_true (ed ed1 : LineEditor) (m : Mutation) (h : m.run ed = .ret true ed1) :
    ed1 = { saveBufferState ed with buffer := ed1.buffer } := by
  cases m with
  | insertLine p t =>
    simp only [Mutation.run, LineEditor.insertLine] at h
    split at h
    · simp at h
    · split at h
      · simp only [Outcome.ret.injEq, true_and] at h
        rw [← h]
      · simp at h
  | insertWord c w =>
    simp only [Mutation.run, LineEditor.insertWord] at h
    split at h
    · simp at h
    · split at h
      · simp at h
      · split at h
        · simp at h
        · simp only [Outcome.ret.injEq, true_and] at h
          rw [← h]
  | updateWord c o n =>
    simp only [Mutation.run, LineEditor.updateWord] at h
    split at h
    · simp at h
    · split at h
      · simp at h
      · split at h
        · split at h
          · simp at h
          · simp only [Outcome.ret.injEq, true_and] at h
            rw [← h]
        · simp at h
  | deleteLine i =>
    simp only [Mutation.run, LineEditor.deleteLine] at h
    split at h
    · simp at h
    · split at h
      · simp only [Outcome.ret.injEq, true_and] at h
        rw [← h]
      · simp at h
  | deleteWord c w =>
    simp only [Mutation.run, LineEditor.deleteWord] at h
    split at h
    · simp at h
    · split at h
      · simp at h
      · split at h
        · split at h
          · simp at h
          · simp only [Outcome.ret.injEq, true_and] at h
            rw [← h]
        · simp at h

theorem Mutation.run_true_undoStack (ed ed1 : LineEditor) (m : Mutation)
    (h : m.run ed = .ret true ed1) :
    ed1.undoStack = ⟨ed.buffer⟩ :: popWhileFull ed.undoStack := by
  rw [Mutation.run_true ed ed1 m h]; rfl

theorem Mutation.run_true_redoStack (ed ed1 : LineEditor) (m : Mutation)
    (h : m.run ed = .ret true ed1) : ed1.redoStack = [] := by
  rw [Mutation.run_true ed ed1 m h]; exact saveBufferState_redoStack ed

/-- A mutating call that returns failure has changed nothing. -/
theorem Mutation.run_false (ed ed1 : LineEditor) (m : Mutation) (h : m.run ed = .ret false ed1) :
    ed1 = ed := by
  cases m with
  | insertLine p t =>
    simp only [Mutation.run, LineEditor.insertLine] at h
    split at h
    · simpa using h.symm
    · split at h <;> simp at h
  | insertWord c w =>
    simp only [Mutation.run, LineEditor.insertWord] at h
    split at h
    · simpa using h.symm
    · split at h
      · simp at h
      · split at h <;> simp at h
  | updateWord c o n =>
    simp only [Mutation.run, LineEditor.updateWord] at h
    split at h
    · simpa using h.symm
    · split at h
      · simp at h
      · split at h
        · split at h <;> simp at h
        · simpa using h.symm
  | deleteLine i =>
    simp only [Mutation.run, LineEditor.deleteLine] at h
    split at h
    · simpa using h.symm
    · split at h <;> simp at h
  | deleteWord c w =>
    simp only [Mutation.run, LineEditor.deleteWord] at h
    split at h
    · simpa using h.symm
    · split at h
      · simp at h
      · split at h
        · split at h <;> simp at h
        · simpa using h.symm

end LineEditor

/-! ## Undo and redo after a mutation -/

namespace LineEditor

/-- C1. Undo/redo inverse law: when a mutating call `m` (insertLine, insertWord, updateWord,
deleteLine or deleteWord) returns success from `ed` and leaves `ed1`, the `undo()` called next
returns success and leaves the buffer equal to the buffer of `ed`, and the `redo()` called
after that returns success and leaves the buffer equal to the buffer of `ed1` (indeed it
leaves the whole editor equal to `ed1`). -/
theorem undo_redo_inverse_law (ed ed1 : LineEditor) (m : Mutation)
    (h : m.run ed = .ret true ed1) :
    ∃ ed2 ed3, undo ed1 = .ret true ed2 ∧ ed2.buffer = ed.buffer ∧
      redo ed2 = .ret true ed3 ∧ ed3.buffer = ed1.buffer ∧ ed3 = ed1 := by
  have hu := Mutation.run_true_undoStack ed ed1 m h
  have hr := Mutation.run_true_redoStack ed ed1 m h
  refine ⟨{ ed1 with redoStack := ⟨ed1.buffer⟩ :: ed1.redoStack, buffer := ed.buffer,
                     undoStack := popWhileFull ed.undoStack }, ed1, ?_, rfl, ?_, rfl, rfl⟩
  · simp only [undo, hu]
  · simp only [redo, hr]
    congr 1
    cases ed1
    simp only [LineEditor.mk.injEq, true_and, and_true] at *
    exact ⟨hu.symm, hr.symm⟩

/-- The undo/redo inverse law at `insertLine(1, "x")` on the buffer `["a", "c"]`. -/
theorem undo_redo_inverse_law_witness :
    (Mutation.insertLine 1 "x".toList).run edAC =
        .ret true { buffer := ["a".toList, "x".toList, "c".toList],
                    undoStack := [⟨["a".toList, "c".toList]⟩], redoStack := [],
                    filepath := "file.txt" } ∧
      ∃ ed2 ed3,
        undo { buffer := ["a".toList, "x".toList, "c".toList],
               undoStack := [⟨["a".toList, "c".toList]⟩], redoStack := [],
               filepath := "file.txt" } = .ret true ed2 ∧
        ed2.buffer = edAC.buffer ∧ redo ed2 = .ret true ed3 ∧
        ed3.buffer = ["a".toList, "x".toList, "c".toList] ∧
        ed3 = { buffer := ["a".toList, "x".toList, "c".toList],
                undoStack := [⟨["a".toList, "c".toList]⟩], redoStack := [],
                filepath := "file.txt" } :=
  ⟨by decide, undo_redo_inverse_law edAC _ (.insertLine 1 "x".toList) (by decide)⟩

/-- C7. Redo invalidation: after any mutating call that returns success the redo stack is
empty, so the `redo()` called next returns failure (nothing to redo) and leaves the editor,
its buffer included, as the mutation left it. The state `ed` before the mutation is arbitrary,
in particular it may be the state an `undo()` has just left. -/
theorem redo_invalidation (ed ed1 : LineEditor) (m : Mutation)
    (h : m.run ed = .ret true ed1) :
    ed1.redoStack = [] ∧ redo ed1 = .ret false ed1 := by
  have hr := Mutation.run_true_redoStack ed ed1 m h
  refine ⟨hr, ?_⟩
  simp only [redo, hr]

end LineEditor

namespace LineEditor

/-- Redo invalidation at the sequence `undo(); insertLine(1, "x"); redo()`: the undo leaves `["a", "c"]` with one
redo snapshot, the insertion empties the redo stack, and the redo fails. -/
theorem redo_invalidation_witness :
    undo { buffer := ["a".toList], undoStack := [⟨["a".toList, "c".toList]⟩], redoStack := [],
           filepath := "file.txt" } =
        .ret true { edAC with redoStack := [⟨["a".toList]⟩] } ∧
      (Mutation.insertLine 1 "x".toList).run { edAC with redoStack := [⟨["a".toList]⟩] } =
        .ret true { buffer := ["a".toList, "x".toList, "c".toList],
                    undoStack := [⟨["a".toList, "c".toList]⟩], redoStack := [],
                    filepath := "file.txt" } ∧
      redo { buffer := ["a".toList, "x".toList, "c".toList],
             undoStack := [⟨["a".toList, "c".toList]⟩], redoStack := [],
             filepath := "file.txt" } =
        .ret false { buffer := ["a".toList, "x".toList, "c".toList],
                     undoStack := [⟨["a".toList, "c".toList]⟩], redoStack := [],
                     filepath := "file.txt" } :=
  ⟨by decide, by decide,
    (redo_invalidation { edAC with redoStack := [⟨["a".toList]⟩] } _
      (.insertLine 1 "x".toList) (by decide)).2⟩

/-- The depth of the undo stack after a non-empty run of successful mutations. -/
theorem runAll_undoStack_length (ops : List Mutation) :
    ∀ ed ed1 : LineEditor, ops ≠ [] → runAll ed ops = some ed1 →
      ed1.undoStack.length = min MAX_UNDO (min ed.undoStack.length (MAX_UNDO - 1) + ops.length) := by
  induction ops with
  | nil => intro _ _ h; exact absurd rfl h
  | cons m ms ih =>
    intro ed ed1 _ hrun
    simp only [runAll] at hrun
    split at hrun
    next e2 hm =>
      have hlen : e2.undoStack.length = min ed.undoStack.length (MAX_UNDO - 1) + 1 := by
        rw [Mutation.run_true_undoStack ed e2 m hm, List.length_cons, popWhileFull_length]
      by_cases hms : ms = []
      · subst hms
        simp only [runAll, Option.some.injEq] at hrun
        subst hrun
        rw [hlen]
        simp only [MAX_UNDO, List.length_cons, List.length_nil]
        omega
      · rw [ih e2 ed1 hms hrun, hlen]
        have hpos : 0 < ms.length := List.length_pos.mpr hms
        simp only [MAX_UNDO, List.length_cons]
        omega
    next => simp at hrun

/-- C8. History bound: after more than `MAX_UNDO` (3) consecutive mutating calls that all return
success, with no undo or redo between them, the next three `undo()` calls each return success
and the fourth returns failure (nothing to undo). It holds from every starting state `ed`,
reachable or not. -/
theorem history_bound (ed ed1 : LineEditor) (ops : List Mutation)
    (hn : MAX_UNDO < ops.length) (hrun : runAll ed ops = some ed1) :
    ∃ e1 e2 e3, undo ed1 = .ret true e1 ∧ undo e1 = .ret true e2 ∧ undo e2 = .ret true e3 ∧
      undo e3 = .ret false e3 := by
  have hne : ops ≠ [] := by
    intro h
    rw [h] at hn
    simp at hn
  have hlen := runAll_undoStack_length ops ed ed1 hne hrun
  have h3 : ed1.undoStack.length = 3 := by
    rw [hlen]
    simp only [MAX_UNDO] at hn ⊢
    omega
  obtain ⟨buf, us, rs, fp⟩ := ed1
  match us, h3 with
  | [a, b, c], _ =>
    exact ⟨_, _, _, rfl, rfl, rfl, rfl⟩

/-- The history bound at four appending insertions into a fresh editor. -/
theorem history_bound_witness :
    MAX_UNDO < fourInserts.length ∧
      ∃ ed1, runAll (LineEditor.new "file.txt") fourInserts = some ed1 ∧
        ∃ e1 e2 e3, undo ed1 = .ret true e1 ∧ undo e1 = .ret true e2 ∧ undo e2 = .ret true e3 ∧
          undo e3 = .ret false e3 :=
  ⟨by decide, _, rfl, history_bound (LineEditor.new "file.txt") _ fourInserts (by decide) rfl⟩

end LineEditor

/-! ## The invariant -/

namespace LineEditor

theorem toInt32_of_lt (n : Nat) (h : n < 2 ^ 31) : toInt32 n = (n : Int) := by
  have h1 : n % 2 ^ 32 = n := Nat.mod_eq_of_lt (by omega)
  simp only [toInt32, h1, h, if_true]

theorem readLoop_length (lines : List Line) :
    ∀ buf : List Line, buf.length ≤ MAX_LINES → (readLoop buf lines).length ≤ MAX_LINES := by
  induction lines with
  | nil => intro buf h; simpa [readLoop] using h
  | cons l rest ih =>
    intro buf h
    simp only [readLoop]
    split
    next hlt =>
      apply ih
      rw [List.length_append, List.length_singleton]
      omega
    next => exact h

theorem vecInsert_length (v b : List Line) (p : Int) (t : Line) (h : vecInsert v p t = some b) :
    b.length = v.length + 1 := by
  simp only [vecInsert] at h
  split at h
  next hp =>
    simp only [Option.some.injEq] at h
    rw [← h, List.length_append, List.length_cons, List.length_take, List.length_drop]
    omega
  next => simp at h

theorem vecErase_length (v b : List Line) (i : Int) (h : vecErase v i = some b) :
    b.length + 1 = v.length := by
  simp only [vecErase] at h
  split at h
  next hp =>
    simp only [Option.some.injEq] at h
    rw [← h, List.length_eraseIdx]
    split <;> omega
  next => simp at h

/-- A mutating call that returns success never takes the buffer past `MAX_LINES` lines. -/
theorem Mutation.run_true_length (ed ed1 : LineEditor) (m : Mutation)
    (h : m.run ed = .ret true ed1) (hb : ed.buffer.length ≤ MAX_LINES) :
    ed1.buffer.length ≤ MAX_LINES := by
  cases m with
  | insertLine p t =>
    simp only [Mutation.run, LineEditor.insertLine] at h
    split at h
    · simp at h
    · next hg =>
      split at h
      · next b hv =>
        simp only [Outcome.ret.injEq, true_and] at h
        rw [← h]
        have := vecInsert_length _ _ _ _ hv
        simp only [saveBufferState_buffer] at this
        simp only [this]
        simp only [not_or, not_le, ge_iff_le] at hg
        omega
      · simp at h
  | insertWord c w =>
    simp only [Mutation.run, LineEditor.insertWord] at h
    split at h
    · simp at h
    · split at h
      · simp at h
      · split at h
        · simp at h
        · simp only [Outcome.ret.injEq, true_and] at h
          rw [← h]
          simpa [saveBufferState_buffer] using hb
  | updateWord c o n =>
    simp only [Mutation.run, LineEditor.updateWord] at h
    split at h
    · simp at h
    · split at h
      · simp at h
      · split at h
        · split at h
          · simp at h
          · simp only [Outcome.ret.injEq, true_and] at h
            rw [← h]
            simpa [saveBufferState_buffer] using hb
        · simp at h
  | deleteLine i =>
    simp only [Mutation.run, LineEditor.deleteLine] at h
    split at h
    · simp at h
    · split at h
      · next b hv =>
        simp only [Outcome.ret.injEq, true_and] at h
        rw [← h]
        have := vecErase_length _ _ _ hv
        simp only [saveBufferState_buffer] at this
        show b.length ≤ MAX_LINES
        omega
      · simp at h
  | deleteWord c w =>
    simp only [Mutation.run, LineEditor.deleteWord] at h
    split at h
    · simp at h
    · split at h
      · simp at h
      · split at h
        · split at h
          · simp at h
          · simp only [Outcome.ret.injEq, true_and] at h
            rw [← h]
            simpa [saveBufferState_buffer] using hb
        · simp at h

/-- When an exception leaves a mutating call, `saveBufferState` has already run. -/
theorem Mutation.run_thrown (ed ed1 : LineEditor) (m : Mutation) (h : m.run ed = .thrown ed1) :
    ed1 = saveBufferState ed := by
  cases m with
  | insertLine p t =>
    simp only [Mutation.run, LineEditor.insertLine] at h
    split at h
    · simp at h
    · split at h <;> simp at h
  | insertWord c w =>
    simp only [Mutation.run, LineEditor.insertWord] at h
    split at h
    · simp at h
    · split at h
      · simp at h
      · split at h
        · simpa using h.symm
        · simp at h
  | updateWord c o n =>
    simp only [Mutation.run, LineEditor.updateWord] at h
    split at h
    · simp at h
    · split at h
      · simp at h
      · split at h
        · split at h
          · simpa using h.symm
          · simp at h
        · simp at h
  | deleteLine i =>
    simp only [Mutation.run, LineEditor.deleteLine] at h
    split at h
    · simp at h
    · split at h <;> simp at h
  | deleteWord c w =>
    simp only [Mutation.run, LineEditor.deleteWord] at h
    split at h
    · simp at h
    · split at h
      · simp at h
      · split at h
        · split at h
          · simpa using h.symm
          · simp at h
        · simp at h

end LineEditor

namespace LineEditor

theorem Inv.fresh (path : String) : Inv (LineEditor.new path) := by
  refine ⟨?_, ?_, ?_, ?_⟩ <;> simp [LineEditor.new, MAX_LINES, MAX_UNDO]

theorem Inv.saveBufferState (ed : LineEditor) (h : Inv ed) : Inv (saveBufferState ed) := by
  obtain ⟨hb, hu, _, _⟩ := h
  refine ⟨hb, ?_, ?_, ?_⟩
  · intro s hs
    rw [saveBufferState_undoStack, List.mem_cons] at hs
    rcases hs with rfl | hs
    · exact hb
    · rw [popWhileFull_eq_drop] at hs
      exact hu s (List.mem_of_mem_drop hs)
  · intro s hs
    rw [saveBufferState_redoStack] at hs
    simp at hs
  · rw [saveBufferState_redoStack, saveBufferState_undoStack, List.length_cons,
      popWhileFull_length]
    simp only [MAX_UNDO, List.length_nil]
    omega

theorem Inv.setBuffer (ed : LineEditor) (b : List Line) (h : Inv ed) (hb : b.length ≤ MAX_LINES) :
    Inv { ed with buffer := b } :=
  ⟨hb, h.2.1, h.2.2.1, h.2.2.2⟩

theorem Inv.undo (ed ed1 : LineEditor) (b : Bool) (h : Inv ed)
    (hrun : LineEditor.undo ed = .ret b ed1) : Inv ed1 := by
  obtain ⟨hb, hu, hr, hs⟩ := h
  simp only [LineEditor.undo] at hrun
  split at hrun
  next => simp only [Outcome.ret.injEq] at hrun; rw [← hrun.2]; exact ⟨hb, hu, hr, hs⟩
  next top rest hst =>
    simp only [Outcome.ret.injEq] at hrun
    rw [← hrun.2]
    rw [hst] at hu hs
    refine ⟨hu top (List.mem_cons_self _ _), ?_, ?_, ?_⟩
    · intro s hs1
      exact hu s (List.mem_cons_of_mem _ hs1)
    · intro s hs1
      simp only [List.mem_cons] at hs1
      rcases hs1 with rfl | hs1
      · exact hb
      · exact hr s hs1
    · simp only [List.length_cons] at hs ⊢
      omega

theorem Inv.redo (ed ed1 : LineEditor) (b : Bool) (h : Inv ed)
    (hrun : LineEditor.redo ed = .ret b ed1) : Inv ed1 := by
  obtain ⟨hb, hu, hr, hs⟩ := h
  simp only [LineEditor.redo] at hrun
  split at hrun
  next => simp only [Outcome.ret.injEq] at hrun; rw [← hrun.2]; exact ⟨hb, hu, hr, hs⟩
  next top rest hst =>
    simp only [Outcome.ret.injEq] at hrun
    rw [← hrun.2]
    rw [hst] at hr hs
    refine ⟨hr top (List.mem_cons_self _ _), ?_, ?_, ?_⟩
    · intro s hs1
      simp only [List.mem_cons] at hs1
      rcases hs1 with rfl | hs1
      · exact hb
      · exact hu s hs1
    · intro s hs1
      exact hr s (List.mem_cons_of_mem _ hs1)
    · simp only [List.length_cons] at hs ⊢
      omega

theorem Inv.mutation (ed ed1 : LineEditor) (m : Mutation) (h : Inv ed)
    (hrun : (m.run ed).state? = some ed1) : Inv ed1 := by
  cases hm : m.run ed with
  | ret ok e =>
    rw [hm] at hrun
    simp only [Outcome.state?, Option.some.injEq] at hrun
    subst hrun
    cases ok with
    | false => rw [Mutation.run_false ed e m hm]; exact h
    | true =>
      rw [Mutation.run_true ed e m hm]
      exact Inv.setBuffer _ _ (Inv.saveBufferState ed h) (Mutation.run_true_length ed e m hm h.1)
  | thrown e =>
    rw [hm] at hrun
    simp only [Outcome.state?, Option.some.injEq] at hrun
    subst hrun
    rw [Mutation.run_thrown ed e m hm]
    exact Inv.saveBufferState ed h
  | undefined =>
    rw [hm] at hrun
    simp [Outcome.state?] at hrun

theorem Inv.call (ed ed1 : LineEditor) (op : Op) (h : Inv ed)
    (hrun : (op.run ed).state? = some ed1) : Inv ed1 := by
  cases op with
  | openFile file canCreate =>
    cases file with
    | none =>
      cases canCreate <;>
        · simp only [Op.run, LineEditor.openFile, Outcome.state?, Option.some.injEq] at hrun
          simp at hrun
          rw [← hrun]; exact h
    | some lines =>
      simp only [Op.run, LineEditor.openFile, Outcome.state?, Option.some.injEq] at hrun
      rw [← hrun]
      exact Inv.setBuffer _ _ h (readLoop_length lines ed.buffer h.1)
  | searchWord w =>
    simp only [Op.run, LineEditor.searchWord, Outcome.state?, Option.some.injEq] at hrun
    rw [← hrun]; exact h
  | mutate m => exact Inv.mutation ed ed1 m h hrun
  | undo =>
    simp only [Op.run] at hrun
    cases hu : LineEditor.undo ed with
    | ret b e =>
      rw [hu] at hrun
      simp only [Outcome.state?, Option.some.injEq] at hrun
      subst hrun
      exact Inv.undo ed e b h hu
    | thrown e => simp [LineEditor.undo] at hu; split at hu <;> simp at hu
    | undefined => simp [LineEditor.undo] at hu; split at hu <;> simp at hu
  | redo =>
    simp only [Op.run] at hrun
    cases hu : LineEditor.redo ed with
    | ret b e =>
      rw [hu] at hrun
      simp only [Outcome.state?, Option.some.injEq] at hrun
      subst hrun
      exact Inv.redo ed e b h hu
    | thrown e => simp [LineEditor.redo] at hu; split at hu <;> simp at hu
    | undefined => simp [LineEditor.redo] at hu; split at hu <;> simp at hu

/-- Every reachable state satisfies the invariant. -/
theorem Reachable.inv (ed : LineEditor) (h : Reachable ed) : Inv ed := by
  induction h with
  | fresh path => exact Inv.fresh path
  | call e e1 op _ hrun ih => exact Inv.call e e1 op ih hrun

end LineEditor

/-! ## Capacity and history bounds -/

namespace LineEditor

/-- A run of successful mutations leads from a reachable state to a reachable state. -/
theorem Reachable.runAll (ops : List Mutation) :
    ∀ ed ed1 : LineEditor, Reachable ed → LineEditor.runAll ed ops = some ed1 → Reachable ed1 := by
  induction ops with
  | nil =>
    intro ed ed1 h hrun
    simp only [LineEditor.runAll, Option.some.injEq] at hrun
    rw [← hrun]; exact h
  | cons m ms ih =>
    intro ed ed1 h hrun
    simp only [LineEditor.runAll] at hrun
    split at hrun
    next e2 hm =>
      refine ih e2 ed1 (Reachable.call ed e2 (.mutate m) h ?_) hrun
      simp only [Op.run, hm, Outcome.state?]
    next => simp at hrun

/-- C3. Capacity invariant: in every state reachable from a freshly constructed editor by a
sequence of openFile, searchWord, insertLine, insertWord, updateWord, deleteLine, deleteWord, undo
and redo calls the buffer holds at most `MAX_LINES` (25) lines; and an `insertLine` call on a
buffer that holds 25 lines returns failure and leaves the editor unchanged, whatever the
position. -/
theorem capacity_invariant :
    (∀ ed : LineEditor, Reachable ed → ed.buffer.length ≤ MAX_LINES) ∧
    (∀ (ed : LineEditor) (position : Int) (text : Line), ed.buffer.length = MAX_LINES →
      insertLine ed position text = .ret false ed) := by
  refine ⟨fun ed h => (Reachable.inv ed h).1, ?_⟩
  intro ed position text h
  simp only [insertLine, h, ge_iff_le, le_refl, true_or, if_true]

/-- The capacity invariant at the editor that has loaded a file of 30 lines: it is reachable, holds 25 lines, and
refuses an insertion at position 3 and at position -1. -/
theorem capacity_invariant_witness :
    Reachable edLoaded ∧ edLoaded.buffer.length ≤ MAX_LINES ∧
      insertLine edLoaded 3 "x".toList = .ret false edLoaded ∧
      insertLine edLoaded (-1) "x".toList = .ret false edLoaded :=
  have hr : Reachable edLoaded :=
    Reachable.call (LineEditor.new "file.txt") edLoaded
      (.openFile (some (List.replicate 30 [])) true) (Reachable.fresh _) (by decide)
  ⟨hr, capacity_invariant.1 edLoaded hr, capacity_invariant.2 edLoaded 3 _ (by decide),
    capacity_invariant.2 edLoaded (-1) _ (by decide)⟩

/-- C9. Bounded history: in every state reachable from a freshly constructed editor by any
sequence of calls (openFile, searchWord, the five mutations, undo, redo, in any interleaving)
the undo stack holds at most `MAX_UNDO` (3) snapshots and so does the redo stack, also after
the pushes `undo()` makes onto the redo stack and `redo()` makes onto the undo stack. -/
theorem bounded_history (ed : LineEditor) (h : Reachable ed) :
    ed.undoStack.length ≤ MAX_UNDO ∧ ed.redoStack.length ≤ MAX_UNDO := by
  have hs := (Reachable.inv ed h).2.2.2
  constructor <;> omega

/-- The history bounds at the editor after four insertions and one `undo()`. -/
theorem bounded_history_witness :
    Reachable edFourUndo ∧ edFourUndo.undoStack.length ≤ MAX_UNDO ∧
      edFourUndo.redoStack.length ≤ MAX_UNDO :=
  have h4 : Reachable _ :=
    Reachable.runAll fourInserts (LineEditor.new "file.txt") _ (Reachable.fresh _) rfl
  have hr : Reachable edFourUndo := Reachable.call _ edFourUndo .undo h4 (by decide)
  ⟨hr, bounded_history edFourUndo hr⟩

end LineEditor

/-! ## Where the code departs from the specification -/

namespace LineEditor

/-- On a full undo stack `s3, s2, s1` (newest first) `saveBufferState` pops the newest snapshot
`s3` and keeps the oldest. -/
theorem saveBufferState_undoStack_full (ed : LineEditor) (s1 s2 s3 : BufferState)
    (h : ed.undoStack = [s3, s2, s1]) :
    (saveBufferState ed).undoStack = [⟨ed.buffer⟩, s2, s1] := by
  rw [saveBufferState_undoStack, h]
  rfl

/-- C2. Eviction on a full undo stack, evaluated. After three appending insertions into a fresh
editor the undo stack holds, oldest first, `s1 = []`, `s2 = ["a"]`, `s3 = ["a", "b"]` and the
buffer is `B = ["a", "b", "c"]`. The fourth insertion returns success and leaves the undo stack
`s1, s2, B` (oldest first): the newest snapshot `s3` has been evicted, not the oldest, so the
stack is not `s2, s3, B`. The second `undo()` after it then restores `["a"]`, skipping the
state `["a", "b"]`. -/
theorem eviction_drops_newest_snapshot :
    runAll (LineEditor.new "file.txt") (fourInserts.take 3) = some edThree ∧
      ∃ ed4, (Mutation.insertLine 3 "d".toList).run edThree = .ret true ed4 ∧
        ed4.undoStack = [⟨["a".toList, "b".toList, "c".toList]⟩, ⟨["a".toList]⟩, ⟨[]⟩] ∧
        ed4.undoStack ≠
          [⟨["a".toList, "b".toList, "c".toList]⟩, ⟨["a".toList, "b".toList]⟩, ⟨["a".toList]⟩] ∧
        ∃ e1 e2, undo ed4 = .ret true e1 ∧ undo e1 = .ret true e2 ∧
          e1.buffer = ["a".toList, "b".toList, "c".toList] ∧ e2.buffer = ["a".toList] :=
  ⟨by decide, _, rfl, by decide, by decide, _, _, rfl, rfl, by decide, by decide⟩

/-- A negative position passes the guard of `insertLine` whenever the buffer is not full: the
call does not return failure, it reaches `buffer.insert(buffer.begin() + position, text)`. -/
theorem insertLine_negative (ed : LineEditor) (position : Int) (text : Line)
    (hlen : ed.buffer.length < MAX_LINES) (hneg : position < 0) :
    insertLine ed position text = .undefined := by
  have h1 : toInt32 ed.buffer.length = (ed.buffer.length : Int) :=
    toInt32_of_lt _ (by simp only [MAX_LINES] at hlen; omega)
  have hg : ¬ (ed.buffer.length ≥ MAX_LINES ∨ position > toInt32 ed.buffer.length) := by
    rw [h1]; omega
  have hv : vecInsert (saveBufferState ed).buffer position text = none := by
    simp only [vecInsert]
    rw [if_neg]
    omega
  simp only [insertLine, if_neg hg, hv]

/-- For a position that is not negative, `insertLine` returns failure exactly when the buffer
holds `MAX_LINES` lines or more, or the position is greater than the length; otherwise it
returns success. -/
theorem insertLine_nonneg (ed : LineEditor) (position : Int) (text : Line) (hpos : 0 ≤ position) :
    (insertLine ed position text = .ret false ed ↔
      (MAX_LINES ≤ ed.buffer.length ∨ (ed.buffer.length : Int) < position)) ∧
    (¬ (MAX_LINES ≤ ed.buffer.length ∨ (ed.buffer.length : Int) < position) →
      ∃ ed1, insertLine ed position text = .ret true ed1) := by
  by_cases hfull : MAX_LINES ≤ ed.buffer.length
  · refine ⟨⟨fun _ => Or.inl hfull, fun _ => ?_⟩, fun h => absurd (Or.inl hfull) h⟩
    simp only [insertLine, ge_iff_le, hfull, true_or, if_true]
  · have h1 : toInt32 ed.buffer.length = (ed.buffer.length : Int) :=
      toInt32_of_lt _ (by simp only [MAX_LINES] at hfull; omega)
    by_cases hgt : (ed.buffer.length : Int) < position
    · refine ⟨⟨fun _ => Or.inr hgt, fun _ => ?_⟩, fun h => absurd (Or.inr hgt) h⟩
      have hg : ed.buffer.length ≥ MAX_LINES ∨ position > toInt32 ed.buffer.length := by
        rw [h1]; exact Or.inr hgt
      simp only [insertLine, if_pos hg]
    · have hg : ¬ (ed.buffer.length ≥ MAX_LINES ∨ position > toInt32 ed.buffer.length) := by
        rw [h1]; omega
      have hv : vecInsert (saveBufferState ed).buffer position text =
          some (ed.buffer.take position.toNat ++ text :: ed.buffer.drop position.toNat) := by
        simp only [vecInsert, saveBufferState_buffer]
        rw [if_pos]
        omega
      have hrun : insertLine ed position text =
          .ret true { saveBufferState ed with
            buffer := ed.buffer.take position.toNat ++ text :: ed.buffer.drop position.toNat } := by
        simp only [insertLine, if_neg hg, hv]
      refine ⟨⟨fun h => ?_, fun h => ?_⟩, fun _ => ⟨_, hrun⟩⟩
      · rw [hrun] at h
        simp at h
      · omega

/-- C4. The call `insertLine(-1, "x")` on a fresh editor (what the command `insert 0 x` of
`main` makes, passing `lineNum - 1`) does not return failure: the guard has no test for a
negative position, `saveBufferState` runs and `buffer.insert` is called with the iterator
`buffer.begin() - 1`, which is undefined behaviour. -/
theorem insertLine_negative_not_rejected :
    insertLine (LineEditor.new "file.txt") (0 - 1) "x".toList = .undefined ∧
      insertLine (LineEditor.new "file.txt") (0 - 1) "x".toList ≠
        .ret false (LineEditor.new "file.txt") :=
  ⟨by decide, by decide⟩

/-- C5. The call `insertWord(Cursor(0, 5), "x")` on the reachable editor with buffer `["ab"]`,
one undo snapshot and one redo snapshot does not succeed: `string::insert` throws
`std::out_of_range` since offset 5 is past the end of `"ab"`. By then `saveBufferState` has run:
the undo stack has gained a snapshot and the redo stack has been emptied. -/
theorem insertWord_throw_after_history_write :
    Reachable edUndone ∧
      insertWord edUndone ⟨0, 5⟩ "x".toList =
        .thrown { edUndone with undoStack := [⟨["ab".toList]⟩, ⟨[]⟩], redoStack := [] } ∧
      edUndone.undoStack = [⟨[]⟩] ∧
      edUndone.redoStack = [⟨["ab".toList, "cd".toList]⟩] :=
  have h2 : Reachable _ :=
    Reachable.runAll [.insertLine 0 "ab".toList, .insertLine 1 "cd".toList]
      (LineEditor.new "file.txt") _ (Reachable.fresh _) rfl
  ⟨Reachable.call _ edUndone .undo h2 (by decide), by decide, rfl, rfl⟩

theorem toSizeT_natCast (n : Nat) (h : n < 2 ^ 64) : toSizeT (n : Int) = n := by
  simp only [toSizeT]
  have hm : (n : Int) % 2 ^ 64 = (n : Int) := Int.emod_eq_of_lt (by omega) (by omega)
  rw [hm, Int.toNat_ofNat]

/-- With the offset equal to the length of the line, `insertWord` appends the word. -/
theorem insertWord_at_end (ed : LineEditor) (cursor : Cursor) (word line : Line)
    (hline : ed.buffer[cursor.lineNum.toNat]? = some line)
    (hl : 0 ≤ cursor.lineNum) (hlen : ed.buffer.length < 2 ^ 31) (hll : line.length < 2 ^ 64)
    (hp : cursor.position = (line.length : Int)) :
    insertWord ed cursor word =
      .ret true { saveBufferState ed with
        buffer := ed.buffer.set cursor.lineNum.toNat (line ++ word) } := by
  have h1 : toInt32 ed.buffer.length = (ed.buffer.length : Int) := toInt32_of_lt _ hlen
  have hlt : cursor.lineNum.toNat < ed.buffer.length := by
    rcases Nat.lt_or_ge cursor.lineNum.toNat ed.buffer.length with h | h
    · exact h
    · rw [List.getElem?_eq_none h] at hline
      simp at hline
  have hg : ¬ (cursor.lineNum < 0 ∨ cursor.lineNum ≥ toInt32 ed.buffer.length) := by
    rw [h1]; omega
  have hs : strInsert line (toSizeT cursor.position) word = some (line ++ word) := by
    rw [hp, toSizeT_natCast _ hll]
    simp [strInsert]
  simp only [insertWord, if_neg hg, saveBufferState_buffer, hline, hs]

/-- C6. The call `insertWord(Cursor(0, 2), "x")` on the buffer `["a", "c"]`: the line index 0 is
in range and the offset 2 is greater than the length 1 of the line `"a"`. The call does not
return success with the line `"ax"`: `string::insert` throws `std::out_of_range`, which nothing
catches. Only an offset equal to the length appends: `insertWord(Cursor(0, 1), "x")` returns
success with the line `"ax"`. -/
theorem insertWord_past_end_throws :
    insertWord edAC ⟨0, 2⟩ "x".toList = .thrown (saveBufferState edAC) ∧
      (∀ ed1, insertWord edAC ⟨0, 2⟩ "x".toList ≠ .ret true ed1) ∧
      insertWord edAC ⟨0, 1⟩ "x".toList =
        .ret true { saveBufferState edAC with buffer := ["ax".toList, "c".toList] } :=
  ⟨by decide, fun ed1 h => by
    have h2 : insertWord edAC ⟨0, 2⟩ "x".toList = .thrown (saveBufferState edAC) := by decide
    rw [h2] at h
    exact Outcome.noConfusion h, by decide⟩

end LineEditor

/-! ## Searching -/

namespace LineEditor

theorem startsWith_iff (s : Line) : ∀ w : Line, startsWith s w = true ↔ ∃ post, s = w ++ post := by
  induction s with
  | nil =>
    intro w
    cases w with
    | nil => simp [startsWith]
    | cons d w => simp [startsWith]
  | cons c s ih =>
    intro w
    cases w with
    | nil => simp [startsWith]
    | cons d w =>
      simp only [startsWith, Bool.and_eq_true, beq_iff_eq, ih w, List.cons_append,
        List.cons.injEq]
      constructor
      · rintro ⟨rfl, post, rfl⟩
        exact ⟨post, rfl, rfl⟩
      · rintro ⟨post, rfl, rfl⟩
        exact ⟨rfl, post, rfl⟩

theorem occursAt_zero (s w : Line) : OccursAt s w 0 ↔ ∃ post, s = w ++ post := by
  constructor
  · rintro ⟨pre, post, rfl, hpre⟩
    rw [List.length_eq_zero] at hpre
    subst hpre
    exact ⟨post, rfl⟩
  · rintro ⟨post, rfl⟩
    exact ⟨[], post, rfl, rfl⟩

theorem occursAt_cons_succ (c : Char) (s w : Line) (k : Nat) :
    OccursAt (c :: s) w (k + 1) ↔ OccursAt s w k := by
  constructor
  · rintro ⟨pre, post, h, hpre⟩
    cases pre with
    | nil => simp at hpre
    | cons d pre =>
      simp only [List.cons_append, List.cons.injEq] at h
      exact ⟨pre, post, h.2, by simpa using hpre⟩
  · rintro ⟨pre, post, rfl, hpre⟩
    exact ⟨c :: pre, post, rfl, by simp [hpre]⟩

theorem occursAt_nil (w : Line) (k : Nat) : OccursAt [] w k ↔ w = [] ∧ k = 0 := by
  constructor
  · rintro ⟨pre, post, h, hpre⟩
    have h1 := h.symm
    simp only [List.append_eq_nil] at h1
    obtain ⟨⟨rfl, rfl⟩, -⟩ := h1
    exact ⟨rfl, hpre.symm⟩
  · rintro ⟨rfl, rfl⟩
    exact ⟨[], [], rfl, rfl⟩

theorem occursAt_le (s w : Line) (k : Nat) (h : OccursAt s w k) : k + w.length ≤ s.length := by
  obtain ⟨pre, post, rfl, hpre⟩ := h
  simp only [List.length_append]
  omega

theorem occursAt_drop (s w : Line) (pos k : Nat) (hpos : pos ≤ s.length) :
    OccursAt (s.drop pos) w k ↔ OccursAt s w (pos + k) := by
  constructor
  · rintro ⟨pre, post, h, hpre⟩
    refine ⟨s.take pos ++ pre, post, ?_, ?_⟩
    · calc s = s.take pos ++ s.drop pos := (List.take_append_drop pos s).symm
        _ = s.take pos ++ (pre ++ w ++ post) := by rw [h]
        _ = s.take pos ++ pre ++ w ++ post := by simp only [List.append_assoc]
    · rw [List.length_append, List.length_take, hpre]
      omega
  · rintro ⟨pre, post, rfl, hpre⟩
    refine ⟨pre.drop pos, post, ?_, ?_⟩
    · rw [List.append_assoc, List.drop_append_of_le_length (by omega), List.append_assoc]
    · rw [List.length_drop]
      omega

/-- When the scan of `find` returns an offset, the word first occurs there. -/
theorem findFrom_some (w : Line) :
    ∀ (s : Line) (base r : Nat), findFrom w s base = some r →
      ∃ k, r = base + k ∧ FirstOccurrence s w k := by
  intro s
  induction s with
  | nil =>
    intro base r h
    simp only [findFrom] at h
    split at h
    next hw =>
      simp only [Option.some.injEq] at h
      exact ⟨0, by omega, (occursAt_nil w 0).mpr ⟨hw, rfl⟩, fun k hk => absurd hk (Nat.not_lt_zero k)⟩
    next => simp at h
  | cons c s ih =>
    intro base r h
    simp only [findFrom] at h
    split at h
    next hsw =>
      simp only [Option.some.injEq] at h
      refine ⟨0, by omega, ?_, fun k hk => absurd hk (Nat.not_lt_zero k)⟩
      exact (occursAt_zero _ _).mpr ((startsWith_iff _ _).mp hsw)
    next hsw =>
      obtain ⟨k, hr, hocc, hmin⟩ := ih (base + 1) r h
      refine ⟨k + 1, by omega, (occursAt_cons_succ c s w k).mpr hocc, ?_⟩
      intro j hj hoj
      cases j with
      | zero => exact hsw ((startsWith_iff _ _).mpr ((occursAt_zero _ _).mp hoj))
      | succ j => exact hmin j (by omega) ((occursAt_cons_succ c s w j).mp hoj)

/-- When the scan of `find` returns nothing, the word does not occur. -/
theorem findFrom_none (w : Line) :
    ∀ (s : Line) (base : Nat), findFrom w s base = none → ¬ Contains s w := by
  intro s
  induction s with
  | nil =>
    intro base h
    simp only [findFrom] at h
    split at h
    next => simp at h
    next hw =>
      rintro ⟨k, hk⟩
      exact hw ((occursAt_nil w k).mp hk).1
  | cons c s ih =>
    intro base h
    simp only [findFrom] at h
    split at h
    next => simp at h
    next hsw =>
      rintro ⟨k, hk⟩
      cases k with
      | zero => exact hsw ((startsWith_iff _ _).mpr ((occursAt_zero _ _).mp hk))
      | succ k => exact ih (base + 1) h ⟨k, (occursAt_cons_succ c s w k).mp hk⟩

/-- The result of `s.find(w, pos)` when it is an offset `r`: it is the lowest offset `≥ pos` at
which `w` occurs in `s`. -/
theorem strFind_some (s w : Line) (pos r : Nat) (h : strFind s w pos = some r) :
    pos ≤ r ∧ OccursAt s w r ∧ ∀ j, pos ≤ j → j < r → ¬ OccursAt s w j := by
  simp only [strFind] at h
  split at h
  next hpos =>
    obtain ⟨k, hr, hocc, hmin⟩ := findFrom_some w _ pos r h
    subst hr
    refine ⟨by omega, (occursAt_drop s w pos k hpos).mp hocc, ?_⟩
    intro j hj hjr hoj
    have hj2 : j = pos + (j - pos) := by omega
    rw [hj2] at hoj
    exact hmin (j - pos) (by omega) ((occursAt_drop s w pos (j - pos) hpos).mpr hoj)
  next => simp at h

/-- The result of `s.find(w, pos)` when it is `npos`: `w` occurs at no offset `≥ pos`. -/
theorem strFind_none (s w : Line) (pos : Nat) (h : strFind s w pos = none) :
    ∀ j, pos ≤ j → ¬ OccursAt s w j := by
  intro j hj hoj
  have hle := occursAt_le s w j hoj
  simp only [strFind] at h
  split at h
  next hpos =>
    have hj2 : j = pos + (j - pos) := by omega
    rw [hj2] at hoj
    exact findFrom_none w _ pos h ⟨j - pos, (occursAt_drop s w pos (j - pos) hpos).mpr hoj⟩
  next hpos => omega

/-- What the loop of `searchWord` returns, started at index `i` on the lines `ls`. -/
theorem searchLoop_spec (word : Line) :
    ∀ (ls : List Line) (i : Nat),
      (∃ (j c : Nat) (l : Line), ls[j]? = some l ∧ FirstOccurrence l word c ∧
          (∀ (j1 : Nat) (l1 : Line), j1 < j → ls[j1]? = some l1 → ¬ Contains l1 word) ∧
          searchLoop word ls i = ⟨toInt32 (i + j), toInt32 c⟩) ∨
      ((∀ l ∈ ls, ¬ Contains l word) ∧ searchLoop word ls i = Cursor.default) := by
  intro ls
  induction ls with
  | nil =>
    intro i
    exact Or.inr ⟨fun l hl => absurd hl (List.not_mem_nil l), rfl⟩
  | cons line rest ih =>
    intro i
    cases hf : strFind line word 0 with
    | some found =>
      obtain ⟨-, hocc, hmin⟩ := strFind_some line word 0 found hf
      refine Or.inl ⟨0, found, line, List.getElem?_cons_zero, ⟨hocc, fun k hk => hmin k (Nat.zero_le k) hk⟩, ?_, ?_⟩
      · intro j1 l1 hj1
        exact absurd hj1 (Nat.not_lt_zero j1)
      · simp only [searchLoop, hf, Nat.add_zero]
    | none =>
      have hnot : ¬ Contains line word := fun ⟨k, hk⟩ => strFind_none line word 0 hf k (Nat.zero_le k) hk
      rcases ih (i + 1) with ⟨j, c, l, hl, hfirst, hbefore, hres⟩ | ⟨hall, hres⟩
      · refine Or.inl ⟨j + 1, c, l, by simpa using hl, hfirst, ?_, ?_⟩
        · intro j1 l1 hj1 hl1
          cases j1 with
          | zero =>
            simp only [List.getElem?_cons_zero, Option.some.injEq] at hl1
            rw [← hl1]; exact hnot
          | succ j1 =>
            simp only [List.getElem?_cons_succ] at hl1
            exact hbefore j1 l1 (by omega) hl1
        · simp only [searchLoop, hf, hres]
          have e : i + 1 + j = i + (j + 1) := by omega
          rw [e]
      · refine Or.inr ⟨?_, ?_⟩
        · intro l hl
          rcases List.mem_cons.mp hl with rfl | hl
          · exact hnot
          · exact hall l hl
        · simp only [searchLoop, hf, hres]

end LineEditor

namespace LineEditor

/-- When the buffer has fewer than `2^31` lines, each shorter than `2^31` characters, the
index of the first line that contains a word and the offset of its first occurrence there
are below `2^31`. -/
theorem fits_of_short_lines (buf : List Line) (word : Line)
    (hbuf : buf.length < 2 ^ 31) (hline : ∀ l ∈ buf, l.length < 2 ^ 31) :
    ∀ (i c : Nat) (l : Line), buf[i]? = some l →
      (∀ (j : Nat) (l1 : Line), j < i → buf[j]? = some l1 → ¬ Contains l1 word) →
      FirstOccurrence l word c → i < 2 ^ 31 ∧ c < 2 ^ 31 := by
  intro i c l hl _ hfirst
  have hi : i < buf.length := by
    rcases Nat.lt_or_ge i buf.length with h | h
    · exact h
    · rw [List.getElem?_eq_none h] at hl
      simp at hl
  have h1 := occursAt_le l word c hfirst.1
  have h2 := hline l (List.getElem?_mem hl)
  omega

/-- The scan of `find` for `"b"` in `n` characters `a` followed by `b` returns the offset
`n`. -/
theorem findFrom_replicate (n : Nat) :
    ∀ base : Nat, findFrom ['b'] (List.replicate n 'a' ++ ['b']) base = some (base + n) := by
  induction n with
  | zero =>
    intro base
    simp [findFrom, startsWith]
  | succ n ih =>
    intro base
    have hs : startsWith ('a' :: (List.replicate n 'a' ++ ['b'])) ['b'] = false := by
      simp [startsWith]
    rw [List.replicate_succ, List.cons_append, findFrom, hs, ih]
    simp only [Bool.false_eq_true, if_false, Option.some.injEq]
    omega

theorem longLine_length (n : Nat) : (longLine n).length = n + 1 := by
  simp only [longLine, List.length_append, List.length_replicate, List.length_singleton]

theorem strFind_longLine (n : Nat) : strFind (longLine n) ['b'] 0 = some n := by
  simp only [strFind, Nat.zero_le, if_true, List.drop_zero]
  rw [longLine, findFrom_replicate, Nat.zero_add]

/-- On the one-line buffer `longLine n`, `searchWord("b")` returns `Cursor(0, n)` after the
conversion of both `size_t` values to `int`. -/
theorem searchWord_edLong (n : Nat) :
    (searchWord (edLong n) ['b']).1 = ⟨toInt32 0, toInt32 n⟩ := by
  show searchLoop ['b'] [longLine n] 0 = _
  simp only [searchLoop, strFind_longLine]

/-- The first occurrence of `"b"` in `longLine n` is at offset `n`. -/
theorem longLine_first (n : Nat) : FirstOccurrence (longLine n) ['b'] n := by
  obtain ⟨k, hk, hfirst⟩ := findFrom_some ['b'] (longLine n) 0 n
    (by rw [longLine, findFrom_replicate, Nat.zero_add])
  have hkn : k = n := by omega
  rw [hkn] at hfirst
  exact hfirst

theorem edLong_reachable (n : Nat) : Reachable (edLong n) :=
  Reachable.call (LineEditor.new "file.txt") (edLong n) (.openFile (some [longLine n]) true)
    (Reachable.fresh _) rfl

/-- The offset `searchWord` returns wraps when it does not fit an `int`. The editor that has
loaded a file of one line, `2^31` characters `a` followed by `b`, is reachable; line 0 is the
only line, it contains `"b"`, and the first occurrence of `"b"` in it is at offset `2^31`. Yet
`searchWord("b")` returns the cursor `(0, -2147483648)`, not `(0, 2147483648)`: the constructor
call `Cursor(i, found)` converts the `size_t` offset to `int`. -/
theorem searchWord_offset_wraps :
    Reachable (edLong (2 ^ 31)) ∧
      (edLong (2 ^ 31)).buffer[0]? = some (longLine (2 ^ 31)) ∧
      FirstOccurrence (longLine (2 ^ 31)) ['b'] (2 ^ 31) ∧
      (searchWord (edLong (2 ^ 31)) ['b']).1 = ⟨0, -2147483648⟩ ∧
      (searchWord (edLong (2 ^ 31)) ['b']).1 ≠ ⟨((0 : Nat) : Int), ((2 ^ 31 : Nat) : Int)⟩ := by
  have hres : (searchWord (edLong (2 ^ 31)) ['b']).1 = ⟨0, -2147483648⟩ := by
    rw [searchWord_edLong]
    decide
  refine ⟨edLong_reachable _, rfl, longLine_first _, hres, ?_⟩
  rw [hres]
  decide

/-- C10 (amended). Search correctness. Take a buffer and a word such that the smallest index
`i` of a line that contains the word and the offset `c` of the first occurrence of the word in
that line, when there is such a line, are both below `2^31` (the values an `int` field of
`Cursor` can hold). Then either `searchWord` returns the cursor `(i, c)` for that `i` and
`c`, or no line contains the word and it returns the sentinel `(-1, -1)`; it returns the
sentinel exactly when no line contains the word; and the editor (buffer, undo stack, redo
stack) is the same after the call. -/
theorem searchWord_correct (ed : LineEditor) (word : Line)
    (hfit : ∀ (i c : Nat) (l : Line), ed.buffer[i]? = some l →
      (∀ (j : Nat) (l1 : Line), j < i → ed.buffer[j]? = some l1 → ¬ Contains l1 word) →
      FirstOccurrence l word c → i < 2 ^ 31 ∧ c < 2 ^ 31) :
    ((∃ (i c : Nat) (l : Line), ed.buffer[i]? = some l ∧ Contains l word ∧
          (∀ (j : Nat) (l1 : Line), j < i → ed.buffer[j]? = some l1 → ¬ Contains l1 word) ∧
          FirstOccurrence l word c ∧
          (searchWord ed word).1 = ⟨(i : Int), (c : Int)⟩) ∨
      ((∀ l ∈ ed.buffer, ¬ Contains l word) ∧ (searchWord ed word).1 = ⟨-1, -1⟩)) ∧
    ((searchWord ed word).1 = ⟨-1, -1⟩ ↔ ∀ l ∈ ed.buffer, ¬ Contains l word) ∧
    (searchWord ed word).2 = ed := by
  have key : (∃ (i c : Nat) (l : Line), ed.buffer[i]? = some l ∧ Contains l word ∧
          (∀ (j : Nat) (l1 : Line), j < i → ed.buffer[j]? = some l1 → ¬ Contains l1 word) ∧
          FirstOccurrence l word c ∧
          (searchWord ed word).1 = ⟨(i : Int), (c : Int)⟩) ∨
      ((∀ l ∈ ed.buffer, ¬ Contains l word) ∧ (searchWord ed word).1 = ⟨-1, -1⟩) := by
    rcases searchLoop_spec word ed.buffer 0 with ⟨j, c, l, hl, hfirst, hbefore, hres⟩ | ⟨hall, hres⟩
    · left
      obtain ⟨hj, hc⟩ := hfit j c l hl hbefore hfirst
      refine ⟨j, c, l, hl, ⟨c, hfirst.1⟩, hbefore, hfirst, ?_⟩
      simp only [searchWord, hres, Nat.zero_add]
      rw [toInt32_of_lt j hj, toInt32_of_lt c hc]
    · right
      exact ⟨hall, by simp only [searchWord, hres, Cursor.default]⟩
  refine ⟨key, ⟨fun hs => ?_, fun hno => ?_⟩, rfl⟩
  · rcases key with ⟨i, c, l, _, _, _, _, hres⟩ | ⟨hall, _⟩
    · rw [hres] at hs
      simp only [Cursor.mk.injEq] at hs
      omega
    · exact hall
  · rcases key with ⟨i, c, l, hl, hcont, _, _, _⟩ | ⟨_, hres⟩
    · exact absurd hcont (hno l (List.getElem?_mem hl))
    · exact hres

/-- Search on the buffer `["abc", "xfoox", "bar"]`, where every index and offset is below
`2^31`: searching `"foo"` returns `(1, 1)`, the first line containing it and the offset there;
searching `"zz"` returns the sentinel, and no line contains `"zz"`. -/
theorem searchWord_correct_witness :
    (∀ (i c : Nat) (l : Line), edFoo.buffer[i]? = some l →
        (∀ (j : Nat) (l1 : Line), j < i → edFoo.buffer[j]? = some l1 →
          ¬ Contains l1 "foo".toList) →
        FirstOccurrence l "foo".toList c → i < 2 ^ 31 ∧ c < 2 ^ 31) ∧
      (searchWord edFoo "foo".toList).1 = ⟨1, 1⟩ ∧
      ((∃ (i c : Nat) (l : Line), edFoo.buffer[i]? = some l ∧ Contains l "foo".toList ∧
            (∀ (j : Nat) (l1 : Line), j < i → edFoo.buffer[j]? = some l1 →
              ¬ Contains l1 "foo".toList) ∧
            FirstOccurrence l "foo".toList c ∧
            (searchWord edFoo "foo".toList).1 = ⟨(i : Int), (c : Int)⟩) ∨
        ((∀ l ∈ edFoo.buffer, ¬ Contains l "foo".toList) ∧
          (searchWord edFoo "foo".toList).1 = ⟨-1, -1⟩)) ∧
      (searchWord edFoo "zz".toList).1 = ⟨-1, -1⟩ ∧
      (∀ l ∈ edFoo.buffer, ¬ Contains l "zz".toList) ∧
      (searchWord edFoo "foo".toList).2 = edFoo :=
  have hfoo := searchWord_correct edFoo "foo".toList
    (fits_of_short_lines edFoo.buffer "foo".toList (by decide) (by decide))
  have hz := searchWord_correct edFoo "zz".toList
    (fits_of_short_lines edFoo.buffer "zz".toList (by decide) (by decide))
  ⟨fits_of_short_lines edFoo.buffer "foo".toList (by decide) (by decide), by decide, hfoo.1,
    by decide, hz.2.1.mp (by decide), hfoo.2.2⟩

/-- A call that returns failure leaves the buffer and both history stacks as they were. -/
theorem Op.run_ret_false (ed ed1 : LineEditor) (op : Op) (h : op.run ed = .ret false ed1) :
    ed1 = ed := by
  cases op with
  | openFile file canCreate =>
    cases file with
    | none => cases canCreate <;> simp [Op.run, LineEditor.openFile] at h; exact h.symm
    | some lines => simp [Op.run, LineEditor.openFile] at h
  | searchWord w => simp [Op.run] at h
  | mutate m => exact Mutation.run_false ed ed1 m h
  | undo =>
    simp only [Op.run, LineEditor.undo] at h
    split at h
    · simpa using h.symm
    · simp at h
  | redo =>
    simp only [Op.run, LineEditor.redo] at h
    split at h
    · simpa using h.symm
    · simp at h

end LineEditor

/-! ## Replacing and deleting a word -/

namespace LineEditor

theorem toInt32_le (n : Nat) : toInt32 n ≤ (n : Int) := by
  simp only [toInt32]
  have h := Nat.mod_le n (2 ^ 32)
  split <;> omega

theorem toSizeT_of_nonneg (z : Int) (h0 : 0 ≤ z) (h : z < 2 ^ 64) : toSizeT z = z.toNat := by
  simp only [toSizeT]
  rw [Int.emod_eq_of_lt h0 h]

/-- An index that passes the guard `lineNum < 0 || lineNum >= static_cast<int>(buffer.size())`
is a valid index of the buffer. -/
theorem index_of_guard (ed : LineEditor) (lineNum : Int)
    (hg : ¬ (lineNum < 0 ∨ lineNum ≥ toInt32 ed.buffer.length)) :
    0 ≤ lineNum ∧ lineNum.toNat < ed.buffer.length := by
  have h := toInt32_le ed.buffer.length
  omega

/-- When `find` has an occurrence at or after its start offset to find, it finds one. -/
theorem strFind_of_occursAt (s w : Line) (pos k : Nat) (hk : pos ≤ k) (ho : OccursAt s w k) :
    ∃ r, strFind s w pos = some r := by
  cases h : strFind s w pos with
  | some r => exact ⟨r, rfl⟩
  | none => exact absurd ho (strFind_none s w pos h k hk)

theorem strReplace_of_le (s w : Line) (pos len : Nat) (h : pos ≤ s.length) :
    strReplace s pos len w = some (s.take pos ++ w ++ s.drop (pos + len)) := by
  simp only [strReplace, if_pos h]

theorem strErase_of_le (s : Line) (pos len : Nat) (h : pos ≤ s.length) :
    strErase s pos len = some (s.take pos ++ s.drop (pos + len)) := by
  simp only [strErase, if_pos h]

/-- An occurrence at offset `k` splits the line around the word. -/
theorem occursAt_split (s w : Line) (k : Nat) (h : OccursAt s w k) :
    s = s.take k ++ w ++ s.drop (k + w.length) := by
  obtain ⟨pre, post, rfl, rfl⟩ := h
  simp [List.take_append_eq_append_take, List.drop_append_eq_append_drop]

/-- The call `updateWord` when the line index passes the guard and `find` returns an offset. -/
theorem updateWord_of_find (ed : LineEditor) (cursor : Cursor) (oldWord newWord line : Line)
    (found : Nat) (hg : ¬ (cursor.lineNum < 0 ∨ cursor.lineNum ≥ toInt32 ed.buffer.length))
    (hline : ed.buffer[cursor.lineNum.toNat]? = some line)
    (hf : strFind line oldWord (toSizeT cursor.position) = some found) :
    updateWord ed cursor oldWord newWord =
      .ret true { saveBufferState ed with
        buffer := ed.buffer.set cursor.lineNum.toNat
          (line.take found ++ newWord ++ line.drop (found + oldWord.length)) } := by
  have hle : found ≤ line.length := by
    have := occursAt_le line oldWord found (strFind_some _ _ _ _ hf).2.1
    omega
  simp only [updateWord, if_neg hg, hline, hf, strReplace_of_le _ _ _ _ hle,
    saveBufferState_buffer]

/-- The call `updateWord` when the line index passes the guard and `find` returns `npos`. -/
theorem updateWord_of_not_found (ed : LineEditor) (cursor : Cursor) (oldWord newWord line : Line)
    (hg : ¬ (cursor.lineNum < 0 ∨ cursor.lineNum ≥ toInt32 ed.buffer.length))
    (hline : ed.buffer[cursor.lineNum.toNat]? = some line)
    (hf : strFind line oldWord (toSizeT cursor.position) = none) :
    updateWord ed cursor oldWord newWord = .ret false ed := by
  simp only [updateWord, if_neg hg, hline, hf]

/-- The call `updateWord` when the line index fails the guard. -/
theorem updateWord_of_guard (ed : LineEditor) (cursor : Cursor) (oldWord newWord : Line)
    (hg : cursor.lineNum < 0 ∨ cursor.lineNum ≥ toInt32 ed.buffer.length) :
    updateWord ed cursor oldWord newWord = .ret false ed := by
  simp only [updateWord, if_pos hg]

/-- What a successful `updateWord` has done. -/
theorem updateWord_true (ed ed1 : LineEditor) (cursor : Cursor) (oldWord newWord : Line)
    (h : updateWord ed cursor oldWord newWord = .ret true ed1) :
    ∃ (line : Line) (found : Nat), 0 ≤ cursor.lineNum ∧
      ed.buffer[cursor.lineNum.toNat]? = some line ∧
      strFind line oldWord (toSizeT cursor.position) = some found ∧
      ed1 = { saveBufferState ed with
        buffer := ed.buffer.set cursor.lineNum.toNat
          (line.take found ++ newWord ++ line.drop (found + oldWord.length)) } := by
  by_cases hg : cursor.lineNum < 0 ∨ cursor.lineNum ≥ toInt32 ed.buffer.length
  · rw [updateWord_of_guard ed cursor oldWord newWord hg] at h
    simp at h
  · obtain ⟨h0, hlt⟩ := index_of_guard ed cursor.lineNum hg
    have hline : ed.buffer[cursor.lineNum.toNat]? = some (ed.buffer[cursor.lineNum.toNat]) :=
      List.getElem?_eq_getElem hlt
    cases hf : strFind (ed.buffer[cursor.lineNum.toNat]) oldWord (toSizeT cursor.position) with
    | none =>
      rw [updateWord_of_not_found ed cursor oldWord newWord _ hg hline hf] at h
      simp at h
    | some found =>
      rw [updateWord_of_find ed cursor oldWord newWord _ found hg hline hf] at h
      simp only [Outcome.ret.injEq, true_and] at h
      exact ⟨_, found, h0, hline, hf, h.symm⟩

end LineEditor

namespace LineEditor

end LineEditor

namespace LineEditor

/-- C12. Update scoping. Let `cursor.position` be an `int` value. For every state and every
successful `updateWord(cursor, oldWord, newWord)` the number of lines is unchanged, every line
at an index other than `cursor.lineNum` is unchanged, and in the cursor's line the characters
before offset `cursor.position` are unchanged. And `updateWord` returns failure, leaving the
editor as it was, whenever `oldWord` does not occur in the cursor's own line at an offset
`≥ cursor.position` (whatever the other lines hold, and whatever occurs before that offset). -/
theorem updateWord_scoping (ed : LineEditor) (cursor : Cursor) (oldWord newWord : Line)
    (hpos : IsInt cursor.position) :
    (∀ ed1, updateWord ed cursor oldWord newWord = .ret true ed1 →
      ed1.buffer.length = ed.buffer.length ∧
      (∀ j : Nat, j ≠ cursor.lineNum.toNat → ed1.buffer[j]? = ed.buffer[j]?) ∧
      ∃ l l1 : Line, ed.buffer[cursor.lineNum.toNat]? = some l ∧
        ed1.buffer[cursor.lineNum.toNat]? = some l1 ∧
        l1.take cursor.position.toNat = l.take cursor.position.toNat) ∧
    ((¬ ∃ l, 0 ≤ cursor.lineNum ∧ ed.buffer[cursor.lineNum.toNat]? = some l ∧
          ∃ k : Nat, cursor.position ≤ (k : Int) ∧ OccursAt l oldWord k) →
      updateWord ed cursor oldWord newWord = .ret false ed) := by
  have hto : ∀ found : Nat, toSizeT cursor.position ≤ found → cursor.position.toNat ≤ found := by
    intro found hle
    by_cases hp0 : 0 ≤ cursor.position
    · rw [toSizeT_of_nonneg _ hp0 (by have := hpos.2; omega)] at hle
      exact hle
    · omega
  constructor
  · intro ed1 h
    obtain ⟨line, found, h0, hl, hf, he⟩ := updateWord_true ed ed1 cursor oldWord newWord h
    have hlt : cursor.lineNum.toNat < ed.buffer.length := by
      rcases Nat.lt_or_ge cursor.lineNum.toNat ed.buffer.length with h1 | h1
      · exact h1
      · rw [List.getElem?_eq_none h1] at hl
        simp at hl
    have hle := hto found (strFind_some _ _ _ _ hf).1
    have hfl := occursAt_le line oldWord found (strFind_some _ _ _ _ hf).2.1
    refine ⟨?_, ?_, line,
      line.take found ++ newWord ++ line.drop (found + oldWord.length), hl, ?_, ?_⟩
    · rw [he]
      exact List.length_set _ _ _
    · intro j hj
      rw [he]
      exact List.getElem?_set_ne (Ne.symm hj)
    · rw [he]
      exact List.getElem?_set_self hlt
    · rw [List.append_assoc, List.take_append_of_le_length (by rw [List.length_take]; omega),
        List.take_take, Nat.min_eq_left hle]
  · intro hno
    by_cases hg : cursor.lineNum < 0 ∨ cursor.lineNum ≥ toInt32 ed.buffer.length
    · exact updateWord_of_guard ed cursor oldWord newWord hg
    · obtain ⟨h0, hlt⟩ := index_of_guard ed cursor.lineNum hg
      have hline : ed.buffer[cursor.lineNum.toNat]? = some (ed.buffer[cursor.lineNum.toNat]) :=
        List.getElem?_eq_getElem hlt
      cases hf : strFind (ed.buffer[cursor.lineNum.toNat]) oldWord (toSizeT cursor.position) with
      | none => exact updateWord_of_not_found ed cursor oldWord newWord _ hg hline hf
      | some found =>
        exfalso
        apply hno
        have hle := hto found (strFind_some _ _ _ _ hf).1
        exact ⟨_, h0, hline, found, by omega, (strFind_some _ _ _ _ hf).2.1⟩

/-- Update scoping on the buffer `["foo", "a foo foo"]`: `updateWord(Cursor(1, 3), "foo", "x")`
replaces the second `"foo"` of line 1 and leaves line 0 and the start `"a f"` of line 1 alone;
`updateWord(Cursor(0, 1), "foo", "x")` fails though `"foo"` occurs at offset 0 of line 0 and in
line 1. -/
theorem updateWord_scoping_witness :
    IsInt 3 ∧
      updateWord edTwoFoo ⟨1, 3⟩ "foo".toList "x".toList =
        .ret true { saveBufferState edTwoFoo with buffer := ["foo".toList, "a foo x".toList] } ∧
      ((["foo".toList, "a foo x".toList] : List Line).length = edTwoFoo.buffer.length ∧
        (∀ j : Nat, j ≠ (1 : Int).toNat →
          (["foo".toList, "a foo x".toList] : List Line)[j]? = edTwoFoo.buffer[j]?) ∧
        ∃ l l1 : Line, edTwoFoo.buffer[(1 : Int).toNat]? = some l ∧
          (["foo".toList, "a foo x".toList] : List Line)[(1 : Int).toNat]? = some l1 ∧
          l1.take (3 : Int).toNat = l.take (3 : Int).toNat) ∧
      updateWord edTwoFoo ⟨0, 1⟩ "foo".toList "x".toList = .ret false edTwoFoo :=
  ⟨⟨by decide, by decide⟩, by decide,
    (updateWord_scoping edTwoFoo ⟨1, 3⟩ "foo".toList "x".toList ⟨by decide, by decide⟩).1
      { saveBufferState edTwoFoo with buffer := ["foo".toList, "a foo x".toList] } (by decide),
    by decide⟩

/-- C13. Let the number of lines be below `2^31`. Then `deleteLine(lineNum)` succeeds exactly
when `0 ≤ lineNum < length` and returns failure, changing nothing, otherwise. On success the
new buffer is the old one with the element at `lineNum` removed: the lines before it keep
their index, the lines after it move up by one and the length decreases by one. -/
theorem deleteLine_correct (ed : LineEditor) (lineNum : Int) (hbuf : ed.buffer.length < 2 ^ 31) :
    ((∃ ed1, deleteLine ed lineNum = .ret true ed1) ↔
      (0 ≤ lineNum ∧ lineNum < (ed.buffer.length : Int))) ∧
    (¬ (0 ≤ lineNum ∧ lineNum < (ed.buffer.length : Int)) → deleteLine ed lineNum = .ret false ed) ∧
    (∀ ed1, deleteLine ed lineNum = .ret true ed1 →
      ed1.buffer = ed.buffer.eraseIdx lineNum.toNat ∧
      ed1.buffer.length + 1 = ed.buffer.length ∧
      (∀ j : Nat, j < lineNum.toNat → ed1.buffer[j]? = ed.buffer[j]?) ∧
      (∀ j : Nat, lineNum.toNat ≤ j → ed1.buffer[j]? = ed.buffer[j + 1]?)) := by
  have h32 : toInt32 ed.buffer.length = (ed.buffer.length : Int) := toInt32_of_lt _ hbuf
  by_cases hin : 0 ≤ lineNum ∧ lineNum < (ed.buffer.length : Int)
  · have hg : ¬ (lineNum < 0 ∨ lineNum ≥ toInt32 ed.buffer.length) := by
      rw [h32]; omega
    have hrun : deleteLine ed lineNum =
        .ret true { saveBufferState ed with buffer := ed.buffer.eraseIdx lineNum.toNat } := by
      simp only [deleteLine, if_neg hg, vecErase, saveBufferState_buffer, if_pos hin]
    refine ⟨⟨fun _ => hin, fun _ => ⟨_, hrun⟩⟩, fun h => absurd hin h, ?_⟩
    intro ed1 h
    rw [hrun] at h
    simp only [Outcome.ret.injEq, true_and] at h
    rw [← h]
    refine ⟨rfl, ?_, ?_, ?_⟩
    · show (ed.buffer.eraseIdx lineNum.toNat).length + 1 = ed.buffer.length
      rw [List.length_eraseIdx_of_lt (by omega)]
      omega
    · intro j hj
      exact List.getElem?_eraseIdx_of_lt _ _ _ hj
    · intro j hj
      exact List.getElem?_eraseIdx_of_ge _ _ _ hj
  · have hg : lineNum < 0 ∨ lineNum ≥ toInt32 ed.buffer.length := by
      rw [h32]; omega
    have hrun : deleteLine ed lineNum = .ret false ed := by
      simp only [deleteLine, if_pos hg]
    refine ⟨⟨?_, fun h => absurd h hin⟩, fun _ => hrun, ?_⟩
    · rintro ⟨ed1, h⟩
      rw [hrun] at h
      simp at h
    · intro ed1 h
      rw [hrun] at h
      simp at h

/-- Deleting index 1 from `["a", "b", "c"]` yields `["a", "c"]`; index 3 is refused. -/
theorem deleteLine_correct_witness :
    edABC.buffer.length < 2 ^ 31 ∧
      deleteLine edABC 1 = .ret true { saveBufferState edABC with buffer := edAC.buffer } ∧
      edAC.buffer = edABC.buffer.eraseIdx (1 : Int).toNat ∧
      deleteLine edABC 3 = .ret false edABC :=
  ⟨by decide, by decide,
    ((deleteLine_correct edABC 1 (by decide)).2.2
      { saveBufferState edABC with buffer := edAC.buffer } (by decide)).1,
    (deleteLine_correct edABC 3 (by decide)).2.1 (by decide)⟩

/-- C14. Success of `insertLine`: for every buffer of length `n < 25`, every position `p` with
`0 ≤ p ≤ n` and every text, `insertLine(p, text)` returns success and the buffer becomes
(the first `p` old lines) ++ [text] ++ (the remaining `n − p` old lines); its length is `n + 1`,
the new line is at index `p`, and the buffer before the call is the new top of the undo
stack. -/
theorem insertLine_success (ed : LineEditor) (position : Int) (text : Line)
    (hn : ed.buffer.length < MAX_LINES) (h0 : 0 ≤ position)
    (hp : position ≤ (ed.buffer.length : Int)) :
    ∃ ed1, insertLine ed position text = .ret true ed1 ∧
      ed1.buffer = ed.buffer.take position.toNat ++ [text] ++ ed.buffer.drop position.toNat ∧
      (ed.buffer.take position.toNat).length = position.toNat ∧
      (ed.buffer.drop position.toNat).length = ed.buffer.length - position.toNat ∧
      ed1.buffer.length = ed.buffer.length + 1 ∧
      ed1.buffer[position.toNat]? = some text ∧
      ed1.undoStack.head? = some ⟨ed.buffer⟩ := by
  have h32 : toInt32 ed.buffer.length = (ed.buffer.length : Int) :=
    toInt32_of_lt _ (by simp only [MAX_LINES] at hn; omega)
  have hg : ¬ (ed.buffer.length ≥ MAX_LINES ∨ position > toInt32 ed.buffer.length) := by
    rw [h32]; omega
  have hv : vecInsert (saveBufferState ed).buffer position text =
      some (ed.buffer.take position.toNat ++ text :: ed.buffer.drop position.toNat) := by
    simp only [vecInsert, saveBufferState_buffer]
    rw [if_pos ⟨h0, hp⟩]
  have hrun : insertLine ed position text =
      .ret true { saveBufferState ed with
        buffer := ed.buffer.take position.toNat ++ text :: ed.buffer.drop position.toNat } := by
    simp only [insertLine, if_neg hg, hv]
  have htake : (ed.buffer.take position.toNat).length = position.toNat := by
    rw [List.length_take]; omega
  refine ⟨_, hrun, by simp, htake, List.length_drop _ _, ?_, ?_, rfl⟩
  · show (ed.buffer.take position.toNat ++ text :: ed.buffer.drop position.toNat).length = _
    rw [List.length_append, List.length_cons, htake, List.length_drop]
    omega
  · show (ed.buffer.take position.toNat ++ text :: ed.buffer.drop position.toNat)[position.toNat]?
      = some text
    rw [List.getElem?_append_right (by omega), htake, Nat.sub_self]
    exact List.getElem?_cons_zero

/-- Inserting `"x"` at position 1 into `["a", "c"]` yields `["a", "x", "c"]`. -/
theorem insertLine_success_witness :
    edAC.buffer.length < MAX_LINES ∧ (0 : Int) ≤ 1 ∧ (1 : Int) ≤ (edAC.buffer.length : Int) ∧
      insertLine edAC 1 "x".toList =
        .ret true { saveBufferState edAC with
          buffer := ["a".toList, "x".toList, "c".toList] } ∧
      ∃ ed1, insertLine edAC 1 "x".toList = .ret true ed1 ∧
        ed1.buffer = edAC.buffer.take (1 : Int).toNat ++ ["x".toList] ++
          edAC.buffer.drop (1 : Int).toNat ∧
        (edAC.buffer.take (1 : Int).toNat).length = (1 : Int).toNat ∧
        (edAC.buffer.drop (1 : Int).toNat).length = edAC.buffer.length - (1 : Int).toNat ∧
        ed1.buffer.length = edAC.buffer.length + 1 ∧
        ed1.buffer[(1 : Int).toNat]? = some "x".toList ∧
        ed1.undoStack.head? = some ⟨edAC.buffer⟩ :=
  ⟨by decide, by decide, by decide, by decide,
    insertLine_success edAC 1 "x".toList (by decide) (by decide) (by decide)⟩

end LineEditor

/-! ## The `update` command and `deleteWord` -/

namespace LineEditor

/-- What `searchWord` returns when the index and offset of the first match fit in an `int`:
the first line that contains the word with the first offset in it, or the sentinel when no
line contains the word. -/
theorem searchWord_cases (ed : LineEditor) (word : Line)
    (hfit : ∀ (i c : Nat) (l : Line), ed.buffer[i]? = some l →
      (∀ (j : Nat) (l1 : Line), j < i → ed.buffer[j]? = some l1 → ¬ Contains l1 word) →
      FirstOccurrence l word c → i < 2 ^ 31 ∧ c < 2 ^ 31) :
    (∃ (i c : Nat) (l : Line), ed.buffer[i]? = some l ∧ i < ed.buffer.length ∧ c < 2 ^ 31 ∧
        (∀ (j : Nat) (l1 : Line), j < i → ed.buffer[j]? = some l1 → ¬ Contains l1 word) ∧
        FirstOccurrence l word c ∧ (searchWord ed word).1 = ⟨(i : Int), (c : Int)⟩) ∨
    ((∀ l ∈ ed.buffer, ¬ Contains l word) ∧ (searchWord ed word).1 = ⟨-1, -1⟩) := by
  rcases searchLoop_spec word ed.buffer 0 with ⟨j, c, l, hl, hfirst, hbefore, hres⟩ | ⟨hall, hres⟩
  · left
    have hj : j < ed.buffer.length := by
      rcases Nat.lt_or_ge j ed.buffer.length with h | h
      · exact h
      · rw [List.getElem?_eq_none h] at hl
        simp at hl
    obtain ⟨hj31, hc⟩ := hfit j c l hl hbefore hfirst
    refine ⟨j, c, l, hl, hj, hc, hbefore, hfirst, ?_⟩
    simp only [searchWord, hres, Nat.zero_add]
    rw [toInt32_of_lt j hj31, toInt32_of_lt c hc]
  · right
    exact ⟨hall, by simp only [searchWord, hres, Cursor.default]⟩

/-- Started at the offset of the first occurrence, `find` returns that offset. -/
theorem strFind_at_first (s w : Line) (c : Nat) (h : FirstOccurrence s w c) :
    strFind s w c = some c := by
  obtain ⟨r, hr⟩ := strFind_of_occursAt s w c c (Nat.le_refl c) h.1
  obtain ⟨hle, -, hmin⟩ := strFind_some s w c r hr
  rcases Nat.lt_or_ge c r with hlt | hge
  · exact absurd h.1 (hmin c (Nat.le_refl c) hlt)
  · have : r = c := by omega
    rw [hr, this]

/-- A call of `updateWord` on the one-line buffer `longLine n` whose offset converts to a
`size_type` past the end of the line returns failure. -/
theorem updateWord_edLong (n : Nat) (p : Int) (hp : n + 1 < toSizeT p) :
    updateWord (edLong n) ⟨0, p⟩ ['b'] ['c'] = .ret false (edLong n) := by
  have h1 : toInt32 (edLong n).buffer.length = 1 := by
    show toInt32 1 = 1
    decide
  have hg : ¬ ((⟨0, p⟩ : Cursor).lineNum < 0 ∨
      (⟨0, p⟩ : Cursor).lineNum ≥ toInt32 (edLong n).buffer.length) := by
    rw [h1]
    show ¬ ((0 : Int) < 0 ∨ (0 : Int) ≥ 1)
    omega
  have hl : (edLong n).buffer[(⟨0, p⟩ : Cursor).lineNum.toNat]? = some (longLine n) := rfl
  have hf : strFind (longLine n) ['b'] (toSizeT (⟨0, p⟩ : Cursor).position) = none := by
    show strFind (longLine n) ['b'] (toSizeT p) = none
    rw [strFind, longLine_length, if_neg (by omega)]
  exact updateWord_of_not_found (edLong n) _ ['b'] ['c'] (longLine n) hg hl hf

/-- The `update b c` command on the one-line buffer `longLine n` prints "Failed to update
word" when the offset `n`, converted to `int` and back to `size_type`, lies past the end of
the line. -/
theorem updateCommand_edLong (n : Nat) (hp : n + 1 < toSizeT (toInt32 n)) :
    updateCommand (edLong n) ['b'] ['c'] = (Printed.failedToUpdate, .ret false (edLong n)) := by
  have h0 : toInt32 0 = 0 := by decide
  have h2 : (searchWord (edLong n) ['b']).2 = edLong n := rfl
  have hne : (searchWord (edLong n) ['b']).1.lineNum ≠ -1 := by
    rw [searchWord_edLong, h0]
    show (0 : Int) ≠ -1
    omega
  simp only [updateCommand, h2, if_pos hne]
  rw [searchWord_edLong, h0, updateWord_edLong n _ hp]

/-- The `update` command can print "Failed to update word". On the reachable editor whose one
line is `2^31` characters `a` followed by `b`, `searchWord("b")` returns the cursor
`(0, -2147483648)`, which is not the sentinel; `updateWord` at that cursor starts `find` past
the end of the line and returns failure; so the command `update b c` prints "Failed to update
word" and replaces nothing. -/
theorem updateCommand_fails_past_int_offset :
    Reachable (edLong (2 ^ 31)) ∧
      (searchWord (edLong (2 ^ 31)) ['b']).1 = ⟨0, -2147483648⟩ ∧
      (searchWord (edLong (2 ^ 31)) ['b']).1 ≠ ⟨-1, -1⟩ ∧
      updateWord (edLong (2 ^ 31)) ⟨0, -2147483648⟩ ['b'] ['c'] = .ret false (edLong (2 ^ 31)) ∧
      updateCommand (edLong (2 ^ 31)) ['b'] ['c'] =
        (Printed.failedToUpdate, .ret false (edLong (2 ^ 31))) := by
  have hres : (searchWord (edLong (2 ^ 31)) ['b']).1 = ⟨0, -2147483648⟩ := by
    rw [searchWord_edLong]
    decide
  refine ⟨edLong_reachable _, hres, ?_, updateWord_edLong _ _ (by decide),
    updateCommand_edLong _ (by decide)⟩
  rw [hres]
  decide

/-- C15 (amended). The `update` command targets the first occurrence found by a fresh search.
Let the buffer hold fewer than `2^31` lines, and let the first occurrence of `oldWord` in the
lowest-indexed line that contains it start at an offset below `2^31` (so that the offset fits
the `int` field of `Cursor`). Then the command never prints "Failed to update word"; and if
`searchWord(oldWord)` returns a cursor `c` other than the sentinel, then `c.lineNum` is not
-1, `c` is `(i, k)` for the lowest-indexed line `i` that contains `oldWord` and the offset `k`
of the first occurrence of `oldWord` in it, `updateWord(c, oldWord, newWord)` returns success,
and what it replaces is that occurrence: line `i` becomes (its first `k` characters) ++
newWord ++ (what follows the occurrence). -/
theorem updateCommand_first_occurrence (ed : LineEditor) (oldWord newWord : Line)
    (hbuf : ed.buffer.length < 2 ^ 31)
    (hoff : ∀ (i c : Nat) (l : Line), ed.buffer[i]? = some l →
      (∀ (j : Nat) (l1 : Line), j < i → ed.buffer[j]? = some l1 → ¬ Contains l1 oldWord) →
      FirstOccurrence l oldWord c → c < 2 ^ 31) :
    (updateCommand ed oldWord newWord).1 ≠ Printed.failedToUpdate ∧
    ((searchWord ed oldWord).1 ≠ ⟨-1, -1⟩ →
      ∃ (i k : Nat) (l : Line) (ed1 : LineEditor),
        (searchWord ed oldWord).1 = ⟨(i : Int), (k : Int)⟩ ∧
        (searchWord ed oldWord).1.lineNum ≠ -1 ∧
        ed.buffer[i]? = some l ∧
        (∀ (j : Nat) (l1 : Line), j < i → ed.buffer[j]? = some l1 → ¬ Contains l1 oldWord) ∧
        FirstOccurrence l oldWord k ∧
        updateWord ed (searchWord ed oldWord).1 oldWord newWord = .ret true ed1 ∧
        ed1.buffer = ed.buffer.set i (l.take k ++ newWord ++ l.drop (k + oldWord.length)) ∧
        updateCommand ed oldWord newWord = (Printed.nothing, .ret true ed1)) := by
  have hfit : ∀ (i c : Nat) (l : Line), ed.buffer[i]? = some l →
      (∀ (j : Nat) (l1 : Line), j < i → ed.buffer[j]? = some l1 → ¬ Contains l1 oldWord) →
      FirstOccurrence l oldWord c → i < 2 ^ 31 ∧ c < 2 ^ 31 := by
    intro i c l hl hbefore hfirst
    have hi : i < ed.buffer.length := by
      rcases Nat.lt_or_ge i ed.buffer.length with h | h
      · exact h
      · rw [List.getElem?_eq_none h] at hl
        simp at hl
    exact ⟨by omega, hoff i c l hl hbefore hfirst⟩
  rcases searchWord_cases ed oldWord hfit with
    ⟨i, k, l, hl, hi, hk, hbefore, hfirst, hres⟩ | ⟨-, hres⟩
  · have h32 : toInt32 ed.buffer.length = (ed.buffer.length : Int) := toInt32_of_lt _ hbuf
    have hg : ¬ (((⟨(i : Int), (k : Int)⟩ : Cursor).lineNum < 0) ∨
        (⟨(i : Int), (k : Int)⟩ : Cursor).lineNum ≥ toInt32 ed.buffer.length) := by
      rw [h32]
      show ¬ ((i : Int) < 0 ∨ (i : Int) ≥ (ed.buffer.length : Int))
      omega
    have hl2 : ed.buffer[(⟨(i : Int), (k : Int)⟩ : Cursor).lineNum.toNat]? = some l := by
      show ed.buffer[(i : Int).toNat]? = some l
      rw [Int.toNat_ofNat]; exact hl
    have hf : strFind l oldWord (toSizeT (⟨(i : Int), (k : Int)⟩ : Cursor).position) = some k := by
      show strFind l oldWord (toSizeT (k : Int)) = some k
      rw [toSizeT_natCast k (by omega)]
      exact strFind_at_first l oldWord k hfirst
    have hup := updateWord_of_find ed ⟨(i : Int), (k : Int)⟩ oldWord newWord l k hg hl2 hf
    have hne : (searchWord ed oldWord).1.lineNum ≠ -1 := by
      rw [hres]
      show (i : Int) ≠ -1
      omega
    have hcmd : updateCommand ed oldWord newWord =
        (Printed.nothing, .ret true { saveBufferState ed with
          buffer := ed.buffer.set (i : Int).toNat
            (l.take k ++ newWord ++ l.drop (k + oldWord.length)) }) := by
      have h2 : (searchWord ed oldWord).2 = ed := rfl
      simp only [updateCommand, h2, if_pos hne]
      rw [hres, hup]
    refine ⟨?_, fun _ => ⟨i, k, l, _, hres, hne, hl, hbefore, hfirst, ?_, ?_, hcmd⟩⟩
    · rw [hcmd]
      simp
    · rw [hres]; exact hup
    · show ed.buffer.set (i : Int).toNat _ = _
      rw [Int.toNat_ofNat]
  · have hcmd : updateCommand ed oldWord newWord = (Printed.wordNotFound, .ret false ed) := by
      have h2 : (searchWord ed oldWord).2 = ed := rfl
      have hl : ¬ (searchWord ed oldWord).1.lineNum ≠ -1 := by
        rw [hres]; simp
      simp only [updateCommand, h2, if_neg hl]
    refine ⟨?_, fun h => absurd hres h⟩
    rw [hcmd]
    simp

/-- The `update foo quux` command on the buffer `["foo", "a foo foo"]`, two lines with every
offset below `2^31`, replaces the `"foo"` of line 0 and prints nothing. -/
theorem updateCommand_first_occurrence_witness :
    edTwoFoo.buffer.length < 2 ^ 31 ∧
      (∀ (i c : Nat) (l : Line), edTwoFoo.buffer[i]? = some l →
        (∀ (j : Nat) (l1 : Line), j < i → edTwoFoo.buffer[j]? = some l1 →
          ¬ Contains l1 "foo".toList) →
        FirstOccurrence l "foo".toList c → c < 2 ^ 31) ∧
      (searchWord edTwoFoo "foo".toList).1 = ⟨0, 0⟩ ∧
      updateCommand edTwoFoo "foo".toList "quux".toList =
        (Printed.nothing, .ret true { saveBufferState edTwoFoo with
          buffer := ["quux".toList, "a foo foo".toList] }) ∧
      (updateCommand edTwoFoo "foo".toList "quux".toList).1 ≠ Printed.failedToUpdate :=
  have hoff : ∀ (i c : Nat) (l : Line), edTwoFoo.buffer[i]? = some l →
      (∀ (j : Nat) (l1 : Line), j < i → edTwoFoo.buffer[j]? = some l1 →
        ¬ Contains l1 "foo".toList) →
      FirstOccurrence l "foo".toList c → c < 2 ^ 31 :=
    fun i c l h1 h2 h3 =>
      (fits_of_short_lines edTwoFoo.buffer "foo".toList (by decide) (by decide) i c l h1 h2 h3).2
  ⟨by decide, hoff, by decide, by decide,
    (updateCommand_first_occurrence edTwoFoo "foo".toList "quux".toList (by decide) hoff).1⟩

end LineEditor

namespace LineEditor

theorem strReplace_nil (s : Line) (pos len : Nat) :
    strReplace s pos len [] = strErase s pos len := by
  simp only [strReplace, strErase, List.append_nil]

/-- The call `deleteWord(cursor, word)` does what `updateWord(cursor, word, "")` does. -/
theorem deleteWord_eq_updateWord (ed : LineEditor) (cursor : Cursor) (word : Line) :
    deleteWord ed cursor word = updateWord ed cursor word [] := by
  simp only [deleteWord, updateWord, strReplace_nil]

/-- Whether `updateWord` succeeds does not depend on the new word. -/
theorem updateWord_success_indep (ed ed1 : LineEditor) (cursor : Cursor)
    (oldWord newWord other : Line) (h : updateWord ed cursor oldWord newWord = .ret true ed1) :
    ∃ ed2, updateWord ed cursor oldWord other = .ret true ed2 := by
  by_cases hg : cursor.lineNum < 0 ∨ cursor.lineNum ≥ toInt32 ed.buffer.length
  · rw [updateWord_of_guard ed cursor oldWord newWord hg] at h
    simp at h
  · obtain ⟨line, found, -, hl, hf, -⟩ := updateWord_true ed ed1 cursor oldWord newWord h
    exact ⟨_, updateWord_of_find ed cursor oldWord other line found hg hl hf⟩

/-- C16. The call `deleteWord(cursor, word)` succeeds exactly when `updateWord(cursor, word, w)`
succeeds from the same state, for any new word `w`; it has the outcome of
`updateWord(cursor, word, "")`, so on success it yields the same buffer, undo stack and redo
stack; and on success the cursor's line `l` splits as `pre ++ word ++ suf` at the first
occurrence of `word` at or after the cursor's offset and becomes `pre ++ suf`, the other lines
are unchanged, the buffer before the call is pushed for undo and the redo stack is emptied. -/
theorem deleteWord_refines_updateWord (ed : LineEditor) (cursor : Cursor) (word w : Line) :
    ((∃ ed1, deleteWord ed cursor word = .ret true ed1) ↔
      (∃ ed2, updateWord ed cursor word w = .ret true ed2)) ∧
    deleteWord ed cursor word = updateWord ed cursor word [] ∧
    (∀ ed1, deleteWord ed cursor word = .ret true ed1 →
      ∃ l pre suf : Line, ed.buffer[cursor.lineNum.toNat]? = some l ∧
        l = pre ++ word ++ suf ∧ toSizeT cursor.position ≤ pre.length ∧
        (∀ j, toSizeT cursor.position ≤ j → j < pre.length → ¬ OccursAt l word j) ∧
        ed1.buffer = ed.buffer.set cursor.lineNum.toNat (pre ++ suf) ∧
        (∀ j : Nat, j ≠ cursor.lineNum.toNat → ed1.buffer[j]? = ed.buffer[j]?) ∧
        ed1.undoStack = ⟨ed.buffer⟩ :: popWhileFull ed.undoStack ∧ ed1.redoStack = []) := by
  have heq := deleteWord_eq_updateWord ed cursor word
  refine ⟨⟨?_, ?_⟩, heq, ?_⟩
  · rintro ⟨ed1, h⟩
    rw [heq] at h
    exact updateWord_success_indep ed ed1 cursor word [] w h
  · rintro ⟨ed2, h⟩
    rw [heq]
    exact updateWord_success_indep ed ed2 cursor word w [] h
  · intro ed1 h
    rw [heq] at h
    obtain ⟨line, found, h0, hl, hf, he⟩ := updateWord_true ed ed1 cursor word [] h
    obtain ⟨hle, hocc, hmin⟩ := strFind_some _ _ _ _ hf
    have hfl := occursAt_le line word found hocc
    have hpre : (line.take found).length = found := by
      rw [List.length_take]; omega
    refine ⟨line, line.take found, line.drop (found + word.length), hl,
      occursAt_split line word found hocc, ?_, ?_, ?_, ?_, ?_, ?_⟩
    · rw [hpre]; exact hle
    · intro j hj hjf
      rw [hpre] at hjf
      exact hmin j hj hjf
    · rw [he]
      simp only [List.append_nil]
    · intro j hj
      rw [he]
      exact List.getElem?_set_ne (Ne.symm hj)
    · rw [he]; rfl
    · rw [he]; exact saveBufferState_redoStack ed

/-- On the buffer `["foo", "a foo foo"]`, `deleteWord(Cursor(1, 3), "foo")` removes the second
`"foo"` of line 1, as `updateWord(Cursor(1, 3), "foo", "")` does, and `updateWord` with the new
word `"x"` succeeds too. -/
theorem deleteWord_refines_updateWord_witness :
    deleteWord edTwoFoo ⟨1, 3⟩ "foo".toList =
        .ret true { saveBufferState edTwoFoo with buffer := ["foo".toList, "a foo ".toList] } ∧
      deleteWord edTwoFoo ⟨1, 3⟩ "foo".toList = updateWord edTwoFoo ⟨1, 3⟩ "foo".toList [] ∧
      ∃ ed2, updateWord edTwoFoo ⟨1, 3⟩ "foo".toList "x".toList = .ret true ed2 :=
  have h := deleteWord_refines_updateWord edTwoFoo ⟨1, 3⟩ "foo".toList "x".toList
  ⟨by decide, h.2.1,
    h.1.mp ⟨{ saveBufferState edTwoFoo with buffer := ["foo".toList, "a foo ".toList] },
      by decide⟩⟩

end LineEditor

/-! ## Loading and saving -/

namespace LineEditor

/-- The read loop appends input lines to the buffer until it holds `MAX_LINES` lines. -/
theorem readLoop_eq (lines : List Line) :
    ∀ buf : List Line, readLoop buf lines = buf ++ lines.take (MAX_LINES - buf.length) := by
  induction lines with
  | nil => intro buf; simp [readLoop]
  | cons l rest ih =>
    intro buf
    simp only [readLoop]
    split
    next hlt =>
      rw [ih, List.length_append, List.length_singleton]
      have e : MAX_LINES - buf.length = (MAX_LINES - (buf.length + 1)) + 1 := by omega
      rw [e, List.take_succ_cons, List.append_assoc, List.singleton_append]
    next hge =>
      have e : MAX_LINES - buf.length = 0 := by omega
      rw [e, List.take_zero, List.append_nil]

/-- The lines `getlines` lists are those the successive `getline` calls extract. -/
theorem getlines_eq_getline (cs : List Char) :
    getlines cs = match getline cs with
      | none => []
      | some (l, rest) => l :: getlines rest := by
  induction cs with
  | nil => rfl
  | cons c cs ih =>
    by_cases hc : c = '\n'
    · simp only [getlines, getline, if_pos hc]
    · simp only [getlines, getline, if_neg hc]
      rw [ih]
      cases hg : getline cs with
      | none =>
        simp only
        rfl
      | some p =>
        obtain ⟨l, rest⟩ := p
        simp only

theorem getlines_append_newline (l : Line) (cs : List Char) (h : '\n' ∉ l) :
    getlines (l ++ '\n' :: cs) = l :: getlines cs := by
  induction l with
  | nil => simp only [List.nil_append, getlines, if_true]
  | cons c l ih =>
    have hc : c ≠ '\n' := fun e => h (by rw [e]; exact List.mem_cons_self _ _)
    have hl : '\n' ∉ l := fun e => h (List.mem_cons_of_mem _ e)
    have e : getlines (c :: (l ++ '\n' :: cs)) =
        match getlines (l ++ '\n' :: cs) with
        | [] => [[c]]
        | l1 :: ls => (c :: l1) :: ls := by
      simp only [getlines, if_neg hc]
    rw [List.cons_append, e, ih hl]

/-- Reading back what `saveFile` writes gives the lines written, when none of them holds a
newline character. -/
theorem getlines_writeLines (buf : List Line) (h : ∀ l ∈ buf, '\n' ∉ l) :
    getlines (writeLines buf) = buf := by
  induction buf with
  | nil => rfl
  | cons l rest ih =>
    simp only [writeLines]
    rw [getlines_append_newline l _ (h l (List.mem_cons_self _ _)),
      ih (fun l1 h1 => h l1 (List.mem_cons_of_mem _ h1))]

/-- The read loop of `openFile` does not replace a buffer that is not empty: on the buffer
`["a", "c"]` (reachable: a fresh editor that has read a file of these two lines) a file holding the one line `"b"` leaves `["a", "c", "b"]`, not the first
`min(1, 25)` input lines `["b"]`. -/
theorem openFile_appends_to_buffer :
    Reachable edAC ∧
      openFile edAC (some ["b".toList]) true =
        .ret true { edAC with buffer := ["a".toList, "c".toList, "b".toList] } ∧
      (["a".toList, "c".toList, "b".toList] : List Line) ≠
        (["b".toList] : List Line).take (min 1 MAX_LINES) :=
  ⟨Reachable.call (LineEditor.new "file.txt") edAC
      (.openFile (some ["a".toList, "c".toList]) true) (Reachable.fresh _) (by decide),
    by decide, by decide⟩

/-- C17 (amended). Bounded load: for every editor state and every input sequence of `n` lines,
the read loop of `openFile` reports success (also when `n > 25`) and appends input lines, in
their order, to the buffer until it holds `MAX_LINES` lines: afterwards the buffer is the old
buffer followed by the first `min(n, 25 − |old buffer|)` input lines. When the buffer is empty
before the call (as at the call in `main`, right after construction) it is the first
`min(n, 25)` input lines. The undo and redo stacks are unchanged. -/
theorem openFile_bounded_load (ed : LineEditor) (lines : List Line) (canCreate : Bool) :
    ∃ ed1, openFile ed (some lines) canCreate = .ret true ed1 ∧
      ed1.buffer = ed.buffer ++ lines.take (min lines.length (MAX_LINES - ed.buffer.length)) ∧
      (ed.buffer = [] → ed1.buffer = lines.take (min lines.length MAX_LINES)) ∧
      ed1.undoStack = ed.undoStack ∧ ed1.redoStack = ed.redoStack := by
  have hmin : ∀ k : Nat, lines.take (min lines.length k) = lines.take k := by
    intro k
    rcases Nat.le_total lines.length k with h | h
    · rw [Nat.min_eq_left h, List.take_of_length_le h, List.take_of_length_le (Nat.le_refl _)]
    · rw [Nat.min_eq_right h]
  refine ⟨{ ed with buffer := readLoop ed.buffer lines }, rfl, ?_, ?_, rfl, rfl⟩
  · show readLoop ed.buffer lines = _
    rw [readLoop_eq, hmin]
  · intro he
    show readLoop ed.buffer lines = _
    rw [readLoop_eq, hmin, he, List.nil_append, List.length_nil, Nat.sub_zero]

/-- A fresh editor that reads a file of 30 empty lines holds the first 25 of them. -/
theorem openFile_bounded_load_witness :
    openFile (LineEditor.new "file.txt") (some (List.replicate 30 [])) true = .ret true edLoaded ∧
      ∃ ed1, openFile (LineEditor.new "file.txt") (some (List.replicate 30 [])) true =
          .ret true ed1 ∧
        ed1.buffer = (List.replicate 30 ([] : Line)).take
          (min (List.replicate 30 ([] : Line)).length MAX_LINES) :=
  have ⟨ed1, h1, _, h3, _, _⟩ :=
    openFile_bounded_load (LineEditor.new "file.txt") (List.replicate 30 []) true
  ⟨by decide, ed1, h1, h3 rfl⟩

/-- A line that holds a newline character does not survive saving and reloading: the reachable
buffer `["a\nb"]` (one line, at most `MAX_LINES`) is written as `"a\nb\n"`, and a fresh editor
reads that back as the two lines `["a", "b"]`. -/
theorem roundtrip_splits_newline :
    Reachable edNewline ∧ edNewline.buffer.length ≤ MAX_LINES ∧
      saveFile edNewline true = (.ret true edNewline, some "a\nb\n".toList) ∧
      openFile (LineEditor.new "file.txt") (some (getlines "a\nb\n".toList)) true =
        .ret true { LineEditor.new "file.txt" with buffer := ["a".toList, "b".toList] } ∧
      (["a".toList, "b".toList] : List Line) ≠ edNewline.buffer :=
  ⟨Reachable.call (LineEditor.new "file.txt") edNewline
      (.mutate (.insertLine 0 "a\nb".toList)) (Reachable.fresh _) (by decide),
    by decide, by decide, by decide, by decide⟩

/-- C18 (amended). Round-trip persistence: for every buffer of at most `MAX_LINES` lines none of
which holds a newline character, writing it as `saveFile` does (each line followed by `'\n'`,
in order) and reading the result back into a fresh editor as `openFile` does (`getline` until
the end of the input, at most 25 lines) yields a buffer identical to the original sequence of
lines. -/
theorem save_load_roundtrip (ed : LineEditor) (path : String) (canCreate : Bool)
    (hlen : ed.buffer.length ≤ MAX_LINES) (hnl : ∀ l ∈ ed.buffer, '\n' ∉ l) :
    ∃ content, saveFile ed true = (.ret true ed, some content) ∧
      openFile (LineEditor.new path) (some (getlines content)) canCreate =
        .ret true { LineEditor.new path with buffer := ed.buffer } := by
  refine ⟨writeLines ed.buffer, rfl, ?_⟩
  simp only [openFile, getlines_writeLines ed.buffer hnl, readLoop_eq]
  have h0 : (LineEditor.new path).buffer = [] := rfl
  rw [h0, List.nil_append, List.length_nil, Nat.sub_zero, List.take_of_length_le hlen]

/-- Saving `["abc", "xfoox", "bar"]` and reloading it into a fresh editor gives the same
lines. -/
theorem save_load_roundtrip_witness :
    edFoo.buffer.length ≤ MAX_LINES ∧ (∀ l ∈ edFoo.buffer, '\n' ∉ l) ∧
      saveFile edFoo true = (.ret true edFoo, some "abc\nxfoox\nbar\n".toList) ∧
      ∃ content, saveFile edFoo true = (.ret true edFoo, some content) ∧
        openFile (LineEditor.new "file.txt") (some (getlines content)) true =
          .ret true { LineEditor.new "file.txt" with buffer := edFoo.buffer } :=
  ⟨by decide, by decide, by decide,
    save_load_roundtrip edFoo "file.txt" true (by decide) (by decide)⟩

end LineEditor

/-! ## Undo and redo on the whole state -/

namespace LineEditor

/-- C19. `undo` and `redo` are mutual inverses on the whole editor state. For every state with
a non-empty undo stack, `undo()` returns success, moving one snapshot from the undo stack to
the redo stack without evicting or clearing any, and the `redo()` after it returns success and
restores the buffer, the undo stack and the redo stack exactly. For every state with a
non-empty redo stack, `redo()` followed by `undo()` restores all three exactly likewise. -/
theorem undo_redo_mutual_inverse (ed : LineEditor) :
    (ed.undoStack ≠ [] →
      ∃ ed1, undo ed = .ret true ed1 ∧ redo ed1 = .ret true ed ∧
        ed1.undoStack = ed.undoStack.tail ∧ ed1.redoStack = ⟨ed.buffer⟩ :: ed.redoStack) ∧
    (ed.redoStack ≠ [] →
      ∃ ed1, redo ed = .ret true ed1 ∧ undo ed1 = .ret true ed ∧
        ed1.redoStack = ed.redoStack.tail ∧ ed1.undoStack = ⟨ed.buffer⟩ :: ed.undoStack) := by
  obtain ⟨buf, us, rs, fp⟩ := ed
  constructor
  · intro h
    cases us with
    | nil => exact absurd rfl h
    | cons top rest => exact ⟨_, rfl, rfl, rfl, rfl⟩
  · intro h
    cases rs with
    | nil => exact absurd rfl h
    | cons top rest => exact ⟨_, rfl, rfl, rfl, rfl⟩

/-- On the editor with buffer `["a", "b", "c"]`, two undo snapshots and one redo snapshot,
`undo(); redo()` and `redo(); undo()` both give the editor back. -/
theorem undo_redo_mutual_inverse_witness :
    edFourUndo.undoStack ≠ [] ∧ edFourUndo.redoStack ≠ [] ∧
      (∃ ed1, undo edFourUndo = .ret true ed1 ∧ redo ed1 = .ret true edFourUndo ∧
        ed1.undoStack = edFourUndo.undoStack.tail ∧
        ed1.redoStack = ⟨edFourUndo.buffer⟩ :: edFourUndo.redoStack) ∧
      (∃ ed1, redo edFourUndo = .ret true ed1 ∧ undo ed1 = .ret true edFourUndo ∧
        ed1.redoStack = edFourUndo.redoStack.tail ∧
        ed1.undoStack = ⟨edFourUndo.buffer⟩ :: edFourUndo.undoStack) :=
  ⟨by decide, by decide, (undo_redo_mutual_inverse edFourUndo).1 (by decide),
    (undo_redo_mutual_inverse edFourUndo).2 (by decide)⟩

/-- A call of `undo` keeps the total number of snapshots. -/
theorem undo_total (ed ed1 : LineEditor) (b : Bool) (h : undo ed = .ret b ed1) :
    ed1.undoStack.length + ed1.redoStack.length = ed.undoStack.length + ed.redoStack.length := by
  simp only [undo] at h
  split at h
  next => simp only [Outcome.ret.injEq] at h; rw [← h.2]
  next top rest hst =>
    simp only [Outcome.ret.injEq] at h
    rw [← h.2, hst]
    simp only [List.length_cons]
    omega

/-- A call of `redo` keeps the total number of snapshots. -/
theorem redo_total (ed ed1 : LineEditor) (b : Bool) (h : redo ed = .ret b ed1) :
    ed1.undoStack.length + ed1.redoStack.length = ed.undoStack.length + ed.redoStack.length := by
  simp only [redo] at h
  split at h
  next => simp only [Outcome.ret.injEq] at h; rw [← h.2]
  next top rest hst =>
    simp only [Outcome.ret.injEq] at h
    rw [← h.2, hst]
    simp only [List.length_cons]
    omega

/-- C20. Total history bound: in every state reachable from a freshly constructed editor
`size(undoStack) + size(redoStack) ≤ MAX_UNDO` (3); a call of `undo()` and a call of `redo()`
each keep this sum unchanged, whether they return success or failure; and every mutating call
that returns success leaves the sum equal to `size(undoStack)`, which is at most 3. -/
theorem total_history_bound :
    (∀ ed : LineEditor, Reachable ed →
      ed.undoStack.length + ed.redoStack.length ≤ MAX_UNDO) ∧
    (∀ (ed ed1 : LineEditor) (b : Bool), undo ed = .ret b ed1 →
      ed1.undoStack.length + ed1.redoStack.length =
        ed.undoStack.length + ed.redoStack.length) ∧
    (∀ (ed ed1 : LineEditor) (b : Bool), redo ed = .ret b ed1 →
      ed1.undoStack.length + ed1.redoStack.length =
        ed.undoStack.length + ed.redoStack.length) ∧
    (∀ (ed ed1 : LineEditor) (m : Mutation), m.run ed = .ret true ed1 →
      ed1.undoStack.length + ed1.redoStack.length = ed1.undoStack.length ∧
      ed1.undoStack.length ≤ MAX_UNDO) := by
  refine ⟨fun ed h => (Reachable.inv ed h).2.2.2, undo_total, redo_total, ?_⟩
  intro ed ed1 m h
  constructor
  · rw [Mutation.run_true_redoStack ed ed1 m h, List.length_nil, Nat.add_zero]
  · rw [Mutation.run_true_undoStack ed ed1 m h, List.length_cons, popWhileFull_length]
    simp only [MAX_UNDO]
    omega

/-- The total bound at the editor after four insertions and one `undo()`: it is reachable and
holds 2 + 1 snapshots; `undo()` there keeps the sum, and an insertion leaves the redo stack
empty. -/
theorem total_history_bound_witness :
    Reachable edFourUndo ∧
      edFourUndo.undoStack.length + edFourUndo.redoStack.length ≤ MAX_UNDO ∧
      (∃ ed1, undo edFourUndo = .ret true ed1 ∧
        ed1.undoStack.length + ed1.redoStack.length =
          edFourUndo.undoStack.length + edFourUndo.redoStack.length) ∧
      (∃ ed1, (Mutation.insertLine 0 "x".toList).run edFourUndo = .ret true ed1 ∧
        ed1.undoStack.length + ed1.redoStack.length = ed1.undoStack.length ∧
        ed1.undoStack.length ≤ MAX_UNDO) :=
  have h4 : Reachable _ :=
    Reachable.runAll fourInserts (LineEditor.new "file.txt") _ (Reachable.fresh _) rfl
  have hr : Reachable edFourUndo := Reachable.call _ edFourUndo .undo h4 (by decide)
  ⟨hr, total_history_bound.1 edFourUndo hr,
    ⟨_, rfl, total_history_bound.2.1 edFourUndo _ true rfl⟩,
    ⟨_, rfl, total_history_bound.2.2.2 edFourUndo _ (.insertLine 0 "x".toList) rfl⟩⟩

end LineEditor
